import Mathlib

/-!
The datagrump congestion controller (`src/datagrump/controller.cc`).

A shallow embedding of `Controller` as compiled with `#define METHOD 7`, and of
the `METHOD 6` block of `Controller::ack_received`, whose estimator the final
policy leaves out.

Modelling conventions.

* The file-scope globals of `controller.cc` (lines 18-27) are the fields of one
  record `State`, threaded explicitly through every operation.
* A C++ `double` is an IEEE 754 binary64 value, `Double`: a finite value, given
  by the rational it stands for, negative zero, an infinity or a NaN. Each
  arithmetic operation takes the exact rational result and rounds it to
  nearest, ties to even, to 53 significant bits, with subnormals down to
  `2 ^ (-1074)` and overflow to an infinity from `2 ^ 1024`. Every operation
  is rounded on its own: no fused multiply-add and no extended precision.
  A division by zero gives an infinity or a NaN, and a comparison with a NaN
  is false.
* `unsigned int` is a `Nat` below `2 ^ 32` and `uint64_t` a `Nat` below
  `2 ^ 64`; arithmetic on them wraps with an explicit `%`.
* Converting a `double` to `unsigned int` truncates toward zero and has no
  defined result when the truncated value is not representable in 32 bits, so
  the conversion returns an `Option`.
* The `debug_` trace written to `cerr` does not touch the globals and is left
  out.
-/

namespace Datagrump

/-- Number of values of an `unsigned int`. -/
def UINT_SIZE : Nat := 2 ^ 32

/-- Number of values of a `uint64_t`. -/
def UINT64_SIZE : Nat := 2 ^ 64

/-- A value of the C++ type `double` (IEEE 754 binary64): a finite value other than
negative zero, given by the rational it stands for (`fin 0` is `+0.0`), negative
zero, an infinity with its sign, or a NaN. -/
inductive Double where
  | fin (q : ℚ)
  | negZero
  | inf (neg : Bool)
  | nan
  deriving DecidableEq

/-- The power `2 ^ e` for an integer exponent. -/
def pow2 (e : Int) : ℚ := 2 ^ e

/-- The number of binary digits of `n`, with `fuel` bounding the recursion. -/
def bitLengthAux : Nat → Nat → Nat
  | 0, _ => 0
  | fuel + 1, n => if n = 0 then 0 else bitLengthAux fuel (n / 2) + 1

/-- The number of binary digits of `n`: 0 for 0 and `⌊log₂ n⌋ + 1` otherwise. -/
def bitLength (n : Nat) : Nat := bitLengthAux n n

/-- The integer `⌊log₂ a⌋` of a positive rational `a`. -/
def ilog2 (a : ℚ) : Int :=
  let k : Int := (bitLength a.num.natAbs : Int) - (bitLength a.den : Int)
  if pow2 k ≤ a then k else k - 1

/-- Rounding of a rational to the nearest integer, a tie going to the even one. -/
def roundHalfEven (x : ℚ) : Int :=
  let f := ⌊x⌋
  if x - f < 1 / 2 then f
  else if 1 / 2 < x - f then f + 1
  else if f % 2 = 0 then f else f + 1

/-- The exponent of the last place of a positive rational `a` in binary64: 52
below `⌊log₂ a⌋`, and at least `-1074`, the exponent of the subnormals. -/
def ulpExp (a : ℚ) : Int := max (ilog2 a - 52) (-1074)

/-- A positive rational rounded to the nearest multiple of its last place, ties
to even, the exponent being unbounded above. -/
def roundMag (a : ℚ) : ℚ := (roundHalfEven (a / pow2 (ulpExp a)) : ℚ) * pow2 (ulpExp a)

namespace Double

/-- The zero with the given sign bit. -/
def zero (neg : Bool) : Double := if neg then negZero else fin 0

/-- Rounding of the exact result `q` of an operation to binary64, to nearest with
ties to even: 53 significant bits, least exponent `-1074`, overflow to an
infinity from `2 ^ 1024`. An exact zero takes the sign bit `negz`; a nonzero
value that rounds to zero keeps its own sign. -/
def round (q : ℚ) (negz : Bool) : Double :=
  if q = 0 then zero negz
  else
    let v := roundMag |q|
    if pow2 1024 ≤ v then inf (decide (q < 0))
    else if v = 0 then zero (decide (q < 0))
    else fin (if q < 0 then -v else v)

/-- A literal of type `double`, or an integer literal converted to `double`. -/
def lit (q : ℚ) : Double := round q false

/-- Conversion of an `unsigned int` to `double`; every value is representable. -/
def ofUInt (n : Nat) : Double := fin (n : ℚ)

/-- Conversion of a `uint64_t` to `double`, rounded to nearest. -/
def ofUInt64 (n : Nat) : Double := round (n : ℚ) false

/-- Whether the value is a zero of either sign. -/
def isZero : Double → Bool
  | fin q => decide (q = 0)
  | negZero => true
  | _ => false

/-- The sign bit. -/
def signBit : Double → Bool
  | fin q => decide (q < 0)
  | negZero => true
  | inf neg => neg
  | nan => false

/-- The rational a finite value stands for (0 for the others). -/
def value : Double → ℚ
  | fin q => q
  | _ => 0

/-- Unary minus. -/
def neg : Double → Double
  | fin q => if q = 0 then negZero else fin (-q)
  | negZero => fin 0
  | inf n => inf (!n)
  | nan => nan

/-- The function `fabs`. -/
def abs : Double → Double
  | fin q => fin |q|
  | negZero => fin 0
  | inf _ => inf false
  | nan => nan

/-- The sum `x + y`. -/
def add (x y : Double) : Double :=
  match x, y with
  | nan, _ => nan
  | _, nan => nan
  | inf a, inf b => if a = b then inf a else nan
  | inf a, _ => inf a
  | _, inf b => inf b
  | _, _ => round (x.value + y.value) (x.signBit && y.signBit)

/-- The difference `x - y`. -/
def sub (x y : Double) : Double := add x (neg y)

/-- The product `x * y`. -/
def mul (x y : Double) : Double :=
  match x, y with
  | nan, _ => nan
  | _, nan => nan
  | inf a, _ => if y.isZero then nan else inf (xor a y.signBit)
  | _, inf b => if x.isZero then nan else inf (xor x.signBit b)
  | _, _ => round (x.value * y.value) (xor x.signBit y.signBit)

/-- The quotient `x / y`. -/
def div (x y : Double) : Double :=
  match x, y with
  | nan, _ => nan
  | _, nan => nan
  | inf _, inf _ => nan
  | inf a, _ => inf (xor a y.signBit)
  | _, inf b => zero (xor x.signBit b)
  | _, _ =>
    if y.isZero then
      if x.isZero then nan else inf (xor x.signBit y.signBit)
    else round (x.value / y.value) (xor x.signBit y.signBit)

/-- The comparison `x < y`; false when either side is a NaN. -/
def lt (x y : Double) : Bool :=
  match x, y with
  | nan, _ => false
  | _, nan => false
  | inf a, inf b => a && !b
  | inf a, _ => a
  | _, inf b => !b
  | _, _ => decide (x.value < y.value)

/-- The comparison `x <= y`; false when either side is a NaN. -/
def le (x y : Double) : Bool :=
  match x, y with
  | nan, _ => false
  | _, nan => false
  | inf a, inf b => a || !b
  | inf a, _ => a
  | _, inf b => !b
  | _, _ => decide (x.value ≤ y.value)

/-- The comparison `x >= y`. -/
def ge (x y : Double) : Bool := le y x

end Double

/-- A `double` that is `+inf` or a finite value that is not negative; negative
zero and the NaNs are excluded. -/
def Double.NonNeg (w : Double) : Prop := w = Double.inf false ∨ ∃ q, w = Double.fin q ∧ 0 ≤ q

/-- The rational `q` is a value of type `double`: rounding leaves it as it is. -/
def IsDouble (q : ℚ) : Prop := Double.round q false = Double.fin q

/-- The globals of `controller.cc`, lines 18-27, under their source names. -/
structure State where
  timeouts_thresh : Double
  num_timeouts : Nat
  the_window_size : Double
  slow_start : Bool
  rto : Double
  estimate_rtt : Double
  phi : Double
  sigma : Double
  deviation : Double
  ssthresh : Nat
  deriving DecidableEq

/-- The initial values of the globals: the state of a fresh controller. -/
def fresh : State where
  timeouts_thresh := Double.lit 0
  num_timeouts := 0
  the_window_size := Double.lit 14.0
  slow_start := true
  rto := Double.lit 80
  estimate_rtt := Double.lit 80
  phi := Double.lit 4
  sigma := Double.lit 0.2
  deviation := Double.lit 0.0
  ssthresh := 999999

/-- Truncation toward zero, the rounding of a C++ floating-to-integer
conversion. -/
def truncate (x : ℚ) : Int :=
  if 0 ≤ x then ⌊x⌋ else ⌈x⌉

/-- The conversion `(unsigned int) x` of a `double`: the truncated value when it
is representable in 32 bits, and no result otherwise (also for an infinity or a
NaN). -/
def toUnsigned : Double → Option Nat
  | .fin q =>
    if 0 ≤ truncate q ∧ truncate q < (UINT_SIZE : Int) then some (truncate q).toNat
    else none
  | .negZero => some 0
  | _ => none

/-- The stored window after line 43: 1 when the window is below 1, and the
window itself otherwise. -/
def clampWindow (w : Double) : Double :=
  if Double.lt w (Double.lit 1) then Double.lit 1.0 else w

/-- `Controller::window_size` (lines 35-45): clamp the stored window to 1 from
below, then return it converted to `unsigned int`. The result is the returned
value together with the state after the call. -/
def window_size (s : State) : Option (Nat × State) :=
  let s1 : State :=
    if Double.lt s.the_window_size (Double.lit 1) then
      { s with the_window_size := Double.lit 1.0 }
    else s
  (toUnsigned s1.the_window_size).map fun v => (v, s1)

/-- `Controller::datagram_was_sent` (lines 48-59): no action on the globals. -/
def datagram_was_sent (s : State) (_sequence_number _send_timestamp : Nat) : State :=
  s

/-- `Controller::timeout_ms` (lines 195-206) under `METHOD 7`:
`return (unsigned int) rto;`. -/
def timeout_ms (s : State) : Option Nat :=
  toUnsigned s.rto

/-- The `uint64_t` subtraction
`timestamp_ack_received - send_timestamp_acked` of line 174, for operands below
`2 ^ 64`. -/
def rtt_of (send_timestamp_acked timestamp_ack_received : Nat) : Nat :=
  (timestamp_ack_received + UINT64_SIZE - send_timestamp_acked) % UINT64_SIZE

/-- The `METHOD 7` block of `Controller::ack_received` (lines 174-188), given
the round-trip time `rtt` and the value `t` returned by `timeout_ms()`. -/
def update (s : State) (rtt t : Nat) : State :=
  if rtt > t then
    let s1 : State := { s with slow_start := false }
    if Double.ge (Double.ofUInt s1.num_timeouts) s1.timeouts_thresh then
      { s1 with
        num_timeouts := 0
        timeouts_thresh := s1.the_window_size
        the_window_size := Double.div s1.the_window_size (Double.lit 2.0) }
    else
      { s1 with num_timeouts := (s1.num_timeouts + 1) % UINT_SIZE }
  else if s.slow_start then
    { s with the_window_size := Double.add s.the_window_size (Double.lit 2) }
  else
    let w : Double :=
      Double.add s.the_window_size (Double.div (Double.lit 1.5) s.the_window_size)
    { s with the_window_size := w }

/-- `Controller::ack_received` (lines 62-190) under `METHOD 7`. -/
def ack_received (s : State)
    (_sequence_number_acked send_timestamp_acked _recv_timestamp_acked
      timestamp_ack_received : Nat) : Option State :=
  (timeout_ms s).map fun t =>
    update s (rtt_of send_timestamp_acked timestamp_ack_received) t

/-- One call on the controller, by a sender. -/
inductive Call where
  | window_size
  | datagram_was_sent (sequence_number send_timestamp : Nat)
  | ack_received (sequence_number_acked send_timestamp_acked
      recv_timestamp_acked timestamp_ack_received : Nat)
  deriving DecidableEq

/-- The effect of one call: the value it returns, if it returns one, and the
state after it. -/
def step (s : State) : Call → Option (Option Nat × State)
  | .window_size => (window_size s).map fun r => (some r.1, r.2)
  | .datagram_was_sent n t => some (none, datagram_was_sent s n t)
  | .ack_received n a b c => (ack_received s n a b c).map fun s1 => (none, s1)

/-- Run a sequence of calls from state `s`: the values returned by the
`window_size` calls, in order, and the final state. -/
def run (s : State) : List Call → Option (List Nat × State)
  | [] => some ([], s)
  | c :: cs =>
    match step s c with
    | none => none
    | some (r, s1) =>
      match run s1 cs with
      | none => none
      | some (outs, s2) => some (r.toList ++ outs, s2)

/-- The estimator of the `METHOD 6` block of `Controller::ack_received`
(lines 161-164), given the round-trip time `rtt` of line 150. -/
def estimator (s : State) (rtt : Nat) : State :=
  let diff : Double :=
    Double.sub (Double.mul (Double.lit 1.0) (Double.ofUInt64 rtt))
      (Double.mul (Double.lit 1.0) s.estimate_rtt)
  let e : Double := Double.add s.estimate_rtt (Double.mul s.sigma diff)
  let s1 : State := { s with estimate_rtt := e }
  let d : Double :=
    Double.add s1.deviation
      (Double.mul (Double.mul (Double.lit 1.0) s1.sigma)
        (Double.sub (Double.abs diff) s1.deviation))
  let s2 : State := { s1 with deviation := d }
  { s2 with rto := Double.add s2.estimate_rtt (Double.mul s2.phi s2.deviation) }

/-- The `METHOD 6` block of `Controller::ack_received` (lines 150-164): the
window update against `ssthresh`, then the estimator. The assignment
`ssthresh = the_window_size / 2` converts a `double` to `unsigned int`. -/
def ack_received_method6 (s : State)
    (_sequence_number_acked send_timestamp_acked _recv_timestamp_acked
      timestamp_ack_received : Nat) : Option State :=
  let rtt := rtt_of send_timestamp_acked timestamp_ack_received
  (timeout_ms s).bind fun t =>
    let s1 : Option State :=
      if rtt > t then
        (toUnsigned (Double.div s.the_window_size (Double.lit 2))).map fun v =>
          { s with ssthresh := v, the_window_size := Double.lit 1 }
      else if Double.lt s.the_window_size (Double.ofUInt s.ssthresh) then
        some { s with the_window_size := Double.add s.the_window_size (Double.lit 1) }
      else
        let w : Double :=
          Double.add s.the_window_size (Double.div (Double.lit 1.0) s.the_window_size)
        some { s with the_window_size := w }
    s1.map fun s2 => estimator s2 rtt

/-- The phase flag `slow_start` after each call of a run from `s`, in order; the
list ends at the first call that has no defined result. -/
def phases (s : State) : List Call → List Bool
  | [] => []
  | c :: cs =>
    match step s c with
    | none => []
    | some (_, s1) => s1.slow_start :: phases s1 cs

/-- The number of places in a list of flags where two neighbours differ. -/
def changes : List Bool → Nat
  | a :: b :: l => (if a = b then 0 else 1) + changes (b :: l)
  | _ => 0

/-- An ack received 100 ms after its datagram was sent: later than the 80 ms
timeout of a fresh controller. -/
def lateAck : Call := .ack_received 0 0 0 100

/-- An ack received 10 ms after its datagram was sent. -/
def timelyAck : Call := .ack_received 0 0 0 10

/-- An `ack_received` call whose round-trip time is at most `t`. -/
def isTimely (t : Nat) : Call → Bool
  | .ack_received _ a _ d => decide (rtt_of a d ≤ t)
  | _ => false

/-- An `ack_received` call whose round-trip time exceeds `t`. -/
def isLate (t : Nat) : Call → Bool
  | .ack_received _ a _ d => decide (t < rtt_of a d)
  | _ => false

/-- The number of calls of a run that are acks later than `t`. -/
def lateCount (t : Nat) (cs : List Call) : Nat := (cs.filter (isLate t)).length

/-- A congestion-avoidance state whose stored window has been halved below 1:
the window 7/4 cut to 7/8, with the window before the cut as threshold. -/
def lowState : State :=
  { fresh with
    timeouts_thresh := .fin (7 / 4), the_window_size := .fin (7 / 8), slow_start := false }

/-- A congestion-avoidance state whose counter holds the largest `unsigned int`
and whose threshold is `2 ^ 32`. -/
def fullCounterState : State :=
  { fresh with
    timeouts_thresh := .fin 4294967296
    num_timeouts := 4294967295
    the_window_size := .fin 2147483648
    slow_start := false }

/-- A congestion-avoidance state with counter 0 and threshold `2 ^ 32`, the
window after a window of `2 ^ 32` was halved. -/
def wideThreshState : State :=
  { fresh with
    timeouts_thresh := .fin 4294967296
    the_window_size := .fin 2147483648
    slow_start := false }

/-- A congestion-avoidance state with window 7/4, counter 0 and threshold 7/2,
the window before the last halving. -/
def hysteresisState : State :=
  { fresh with
    timeouts_thresh := .fin (7 / 2), the_window_size := .fin (7 / 4), slow_start := false }

/-- The state of a controller after `k` halvings of the window below 1 and no
timely ack: window `7 / 2 ^ k`, threshold `7 / 2 ^ (k - 1)`, counter 0. -/
def halvedState (k : Nat) : State :=
  { fresh with
    timeouts_thresh := .fin (7 * pow2 (-((k : Int) - 1)))
    the_window_size := .fin (7 * pow2 (-(k : Int)))
    slow_start := false }

/-- The state a fresh controller reaches after 134217721 timely acks and one
late ack: threshold `2 ^ 28`, window `2 ^ 27`, congestion avoidance. -/
def plateauState : State :=
  { fresh with
    timeouts_thresh := .fin (2 ^ 28)
    the_window_size := .fin (2 ^ 27)
    slow_start := false }

/-- The state a fresh controller reaches after 2173 late acks: the window is
`7 * 2 ^ (-1074)`, seven times the least positive `double`, and the counter 1
has passed the threshold. -/
def tinyState : State := { halvedState 1074 with num_timeouts := 1 }

/-- The state a fresh controller reaches after 94 late acks and one timely ack:
the window, halved to about `1.9e-10`, has grown by `1.5 / window` to about
`7.36e9`, more than `2 ^ 32`. -/
def wideState : State :=
  { fresh with
    timeouts_thresh := .fin (7 / 17179869184)
    the_window_size := .fin (7720456504063707 / 1048576)
    slow_start := false }

/-- The estimator as the specification words it, over exact rationals, on the
triple `(estimated_rtt, rtt_deviation, rto)`: `diff = rtt - estimated_rtt`
from the old estimate, then `estimated_rtt + 0.2 * diff`,
`rtt_deviation + 0.2 * (|diff| - rtt_deviation)` and
`rto = estimated_rtt + 4 * rtt_deviation` from the two new values. It is the
comparison partner of `estimator`, which follows the source. -/
def estimator_spec (p : ℚ × ℚ × ℚ) (rtt : Nat) : ℚ × ℚ × ℚ :=
  let diff : ℚ := (rtt : ℚ) - p.1
  let e : ℚ := p.1 + 0.2 * diff
  let d : ℚ := p.2.1 + 0.2 * (|diff| - p.2.1)
  (e, d, e + 4 * d)

/-- A sequence of `METHOD 6` `ack_received` calls, one for each round-trip
time of the list (send time 0, receipt time the round-trip time). -/
def acks_method6 (s : State) : List Nat → Option State
  | [] => some s
  | r :: rs => (ack_received_method6 s 0 0 0 r).bind fun s1 => acks_method6 s1 rs

/-- The state a fresh controller reaches after 2180 late acks: the window has
been halved to 0. -/
def zeroState : State :=
  { fresh with
    timeouts_thresh := .fin (pow2 (-1074))
    the_window_size := .fin 0
    slow_start := false }

/-- A window that is `+inf` or a finite value of at least `2 ^ e`. -/
def Double.AtLeastPow2 (e : Int) (w : Double) : Prop :=
  w = Double.inf false ∨ ∃ q, w = Double.fin q ∧ pow2 e ≤ q

/-- The threshold is `+inf`, or finite and at least 0 with the counter `n`
below the threshold plus 1. -/
def CounterBound (thresh : Double) (n : Nat) : Prop :=
  thresh = Double.inf false ∨ ∃ T, thresh = Double.fin T ∧ 0 ≤ T ∧ (n : ℚ) < T + 1

/-! # Theorems -/

/-! ## Powers of two and binary logarithms -/

theorem pow2_pos (e : Int) : 0 < pow2 e := by
  unfold pow2
  positivity

theorem pow2_add (a b : Int) : pow2 (a + b) = pow2 a * pow2 b := by
  unfold pow2
  exact zpow_add₀ (by norm_num) a b

theorem pow2_natCast (n : Nat) : pow2 (n : Int) = (2 : ℚ) ^ n := by
  unfold pow2
  exact zpow_natCast 2 n

theorem pow2_le_pow2 {a b : Int} (h : a ≤ b) : pow2 a ≤ pow2 b := by
  unfold pow2
  exact zpow_le_zpow_right₀ (by norm_num) h

theorem pow2_lt_pow2 {a b : Int} (h : a < b) : pow2 a < pow2 b := by
  unfold pow2
  exact zpow_lt_zpow_right₀ (by norm_num) h

theorem lt_of_pow2_lt_pow2 {a b : Int} (h : pow2 a < pow2 b) : a < b := by
  by_contra hc
  exact absurd (pow2_le_pow2 (not_lt.mp hc)) (not_le.mpr h)

theorem pow2_sub (a b : Int) : pow2 (a - b) = pow2 a / pow2 b := by
  unfold pow2
  exact zpow_sub₀ (by norm_num) a b

theorem bitLengthAux_spec (fuel n : Nat) (h : n ≤ fuel) :
    n < 2 ^ bitLengthAux fuel n ∧ (n ≠ 0 → 2 ^ (bitLengthAux fuel n - 1) ≤ n) := by
  induction fuel generalizing n with
  | zero =>
    have : n = 0 := by omega
    subst this
    simp [bitLengthAux]
  | succ fuel ih =>
    by_cases hn : n = 0
    · subst hn
      simp [bitLengthAux]
    · have ih1 := ih (n / 2) (by omega)
      simp only [bitLengthAux, hn, if_false]
      refine ⟨?_, fun _ => ?_⟩
      · rw [pow_succ]
        omega
      · simp only [Nat.add_sub_cancel]
        by_cases h2 : n / 2 = 0
        · have hb : bitLengthAux fuel (n / 2) = 0 := by
            rw [h2]
            cases fuel <;> simp [bitLengthAux]
          rw [hb]
          simp
          omega
        · have hlow := ih1.2 h2
          have hb : bitLengthAux fuel (n / 2) ≠ 0 := by
            intro h0
            have := ih1.1
            rw [h0] at this
            simp at this
            exact h2 this
          obtain ⟨b, hb'⟩ := Nat.exists_eq_succ_of_ne_zero hb
          rw [hb'] at hlow ⊢
          simp only [Nat.succ_sub_one] at hlow
          rw [pow_succ]
          omega

theorem bitLength_spec {n : Nat} (hn : n ≠ 0) :
    2 ^ (bitLength n - 1) ≤ n ∧ n < 2 ^ bitLength n ∧ 1 ≤ bitLength n := by
  have h := bitLengthAux_spec n n le_rfl
  refine ⟨h.2 hn, h.1, ?_⟩
  by_contra hc
  have h0 : bitLengthAux n n = 0 := by
    unfold bitLength at hc
    omega
  have := h.1
  rw [h0] at this
  omega

theorem ilog2_spec {a : ℚ} (ha : 0 < a) : pow2 (ilog2 a) ≤ a ∧ a < pow2 (ilog2 a + 1) := by
  have hnum : 0 < a.num := Rat.num_pos.mpr ha
  have hn0 : a.num.natAbs ≠ 0 := by
    intro h
    have := Int.natAbs_eq_zero.mp h
    omega
  have hd0 : a.den ≠ 0 := a.den_nz
  obtain ⟨hn1, hn2, hn3⟩ := bitLength_spec hn0
  obtain ⟨hd1, hd2, hd3⟩ := bitLength_spec hd0
  set x := bitLength a.num.natAbs with hx
  set y := bitLength a.den with hy
  have hnq : (a.num.natAbs : ℚ) = (a.num : ℚ) := by
    rw [Nat.cast_natAbs, abs_of_pos hnum]
  have hdpos : (0 : ℚ) < (a.den : ℚ) := by exact_mod_cast a.den_pos
  have ha_eq : a = (a.num.natAbs : ℚ) / (a.den : ℚ) := by
    rw [hnq]
    exact (Rat.num_div_den a).symm
  -- bounds on numerator and denominator as rationals
  have hn1q : pow2 ((x : Int) - 1) ≤ (a.num.natAbs : ℚ) := by
    have e : ((x : Int) - 1) = ((x - 1 : Nat) : Int) := by omega
    rw [e, pow2_natCast]
    exact_mod_cast hn1
  have hn2q : (a.num.natAbs : ℚ) < pow2 (x : Int) := by
    rw [pow2_natCast]
    exact_mod_cast hn2
  have hd1q : pow2 ((y : Int) - 1) ≤ (a.den : ℚ) := by
    have e : ((y : Int) - 1) = ((y - 1 : Nat) : Int) := by omega
    rw [e, pow2_natCast]
    exact_mod_cast hd1
  have hd2q : (a.den : ℚ) < pow2 (y : Int) := by
    rw [pow2_natCast]
    exact_mod_cast hd2
  -- a < 2 ^ (x - y + 1) and 2 ^ (x - y - 1) < a
  have hup : a < pow2 ((x : Int) - (y : Int) + 1) := by
    have e : (x : Int) - (y : Int) + 1 = (x : Int) - ((y : Int) - 1) := by ring
    rw [e, pow2_sub, ha_eq, div_lt_div_iff₀ hdpos (pow2_pos _)]
    calc (a.num.natAbs : ℚ) * pow2 ((y : Int) - 1)
        ≤ (a.num.natAbs : ℚ) * (a.den : ℚ) :=
          mul_le_mul_of_nonneg_left hd1q (by positivity)
      _ < pow2 (x : Int) * (a.den : ℚ) := mul_lt_mul_of_pos_right hn2q hdpos
  have hlow : pow2 ((x : Int) - (y : Int) - 1) < a := by
    have e : (x : Int) - (y : Int) - 1 = ((x : Int) - 1) - (y : Int) := by ring
    rw [e, pow2_sub, ha_eq, div_lt_div_iff₀ (pow2_pos _) hdpos]
    calc pow2 ((x : Int) - 1) * (a.den : ℚ)
        < pow2 ((x : Int) - 1) * pow2 (y : Int) :=
          mul_lt_mul_of_pos_left hd2q (pow2_pos _)
      _ ≤ (a.num.natAbs : ℚ) * pow2 (y : Int) :=
          mul_le_mul_of_nonneg_right hn1q (pow2_pos _).le
  unfold ilog2
  simp only [← hx, ← hy]
  split_ifs with hk
  · exact ⟨hk, hup⟩
  · refine ⟨hlow.le, ?_⟩
    have e : (x : Int) - (y : Int) - 1 + 1 = (x : Int) - (y : Int) := by ring
    rw [e]
    exact not_le.mp hk

theorem ilog2_unique {a : ℚ} {k : Int} (h1 : pow2 k ≤ a) (h2 : a < pow2 (k + 1)) :
    ilog2 a = k := by
  have ha : 0 < a := lt_of_lt_of_le (pow2_pos k) h1
  obtain ⟨s1, s2⟩ := ilog2_spec ha
  have u1 : k < ilog2 a + 1 := lt_of_pow2_lt_pow2 (lt_of_le_of_lt h1 s2)
  have u2 : ilog2 a < k + 1 := lt_of_pow2_lt_pow2 (lt_of_le_of_lt s1 h2)
  omega

theorem ilog2_mono {a b : ℚ} (ha : 0 < a) (hab : a ≤ b) : ilog2 a ≤ ilog2 b := by
  obtain ⟨s1, -⟩ := ilog2_spec ha
  obtain ⟨-, t2⟩ := ilog2_spec (lt_of_lt_of_le ha hab)
  have := lt_of_pow2_lt_pow2 (lt_of_le_of_lt (le_trans s1 hab) t2)
  omega

theorem ilog2_lt_of_lt_pow2 {a : ℚ} {k : Int} (ha : 0 < a) (h : a < pow2 k) : ilog2 a < k :=
  lt_of_pow2_lt_pow2 (lt_of_le_of_lt (ilog2_spec ha).1 h)

theorem le_ilog2_of_pow2_le {a : ℚ} {k : Int} (h : pow2 k ≤ a) : k ≤ ilog2 a := by
  have ha : 0 < a := lt_of_lt_of_le (pow2_pos k) h
  have := lt_of_pow2_lt_pow2 (lt_of_le_of_lt h (ilog2_spec ha).2)
  omega

/-! ## Rounding to the nearest integer -/

theorem roundHalfEven_ge (x : ℚ) : ⌊x⌋ ≤ roundHalfEven x := by
  unfold roundHalfEven
  simp only
  split_ifs <;> omega

theorem roundHalfEven_le (x : ℚ) : roundHalfEven x ≤ ⌊x⌋ + 1 := by
  unfold roundHalfEven
  simp only
  split_ifs <;> omega

theorem roundHalfEven_intCast (n : Int) : roundHalfEven (n : ℚ) = n := by
  unfold roundHalfEven
  simp

theorem roundHalfEven_mono {x y : ℚ} (h : x ≤ y) : roundHalfEven x ≤ roundHalfEven y := by
  rcases lt_or_eq_of_le (Int.floor_mono h) with hf | hf
  · calc roundHalfEven x ≤ ⌊x⌋ + 1 := roundHalfEven_le x
      _ ≤ ⌊y⌋ := hf
      _ ≤ roundHalfEven y := roundHalfEven_ge y
  · have hfr : x - ⌊x⌋ ≤ y - ⌊y⌋ := by
      rw [hf]
      linarith
    unfold roundHalfEven
    simp only [hf]
    split_ifs <;> first | omega | linarith

theorem roundHalfEven_nonneg {x : ℚ} (h : 0 ≤ x) : 0 ≤ roundHalfEven x :=
  le_trans (Int.floor_nonneg.mpr h) (roundHalfEven_ge x)

/-! ## Rounding to 53 significant bits -/

theorem ulpExp_ge (a : ℚ) : -1074 ≤ ulpExp a := le_max_right _ _

theorem ulpExp_ge_log (a : ℚ) : ilog2 a - 52 ≤ ulpExp a := le_max_left _ _

theorem ulpExp_mono {a b : ℚ} (ha : 0 < a) (hab : a ≤ b) : ulpExp a ≤ ulpExp b :=
  max_le_max (sub_le_sub_right (ilog2_mono ha hab) 52) le_rfl

theorem pow2_53 (e : Int) : pow2 (e + 53) = pow2 e * 2 ^ 53 := by
  rw [pow2_add]
  congr 1
  exact pow2_natCast 53

theorem pow2_52 (e : Int) : pow2 (e + 52) = pow2 e * 2 ^ 52 := by
  rw [pow2_add]
  congr 1
  exact pow2_natCast 52

theorem scaled_lt {a : ℚ} (ha : 0 < a) : a / pow2 (ulpExp a) < 2 ^ 53 := by
  rw [div_lt_iff₀ (pow2_pos _), mul_comm, ← pow2_53]
  have h1 := (ilog2_spec ha).2
  have h2 : ilog2 a + 1 ≤ ulpExp a + 53 := by
    have := ulpExp_ge_log a
    omega
  exact lt_of_lt_of_le h1 (pow2_le_pow2 h2)

theorem roundMag_nonneg {a : ℚ} (ha : 0 ≤ a) : 0 ≤ roundMag a := by
  unfold roundMag
  have h1 : 0 ≤ a / pow2 (ulpExp a) := div_nonneg ha (pow2_pos _).le
  have h2 : (0 : ℚ) ≤ (roundHalfEven (a / pow2 (ulpExp a)) : ℚ) := by
    exact_mod_cast roundHalfEven_nonneg h1
  exact mul_nonneg h2 (pow2_pos _).le

theorem roundMag_le {a : ℚ} (ha : 0 < a) : roundMag a ≤ pow2 (ulpExp a + 53) := by
  unfold roundMag
  rw [pow2_53, mul_comm (pow2 (ulpExp a))]
  apply mul_le_mul_of_nonneg_right _ (pow2_pos _).le
  have h1 : ⌊a / pow2 (ulpExp a)⌋ < 2 ^ 53 := by
    rw [Int.floor_lt]
    exact_mod_cast scaled_lt ha
  have h2 := roundHalfEven_le (a / pow2 (ulpExp a))
  have h3 : roundHalfEven (a / pow2 (ulpExp a)) ≤ 2 ^ 53 := by omega
  exact_mod_cast h3

theorem roundMag_ge_of_normal {a : ℚ} (ha : 0 < a) (hE : ulpExp a = ilog2 a - 52) :
    pow2 (ulpExp a + 52) ≤ roundMag a := by
  unfold roundMag
  rw [pow2_52, mul_comm (pow2 (ulpExp a))]
  apply mul_le_mul_of_nonneg_right _ (pow2_pos _).le
  have h0 : pow2 (ulpExp a + 52) ≤ a := by
    have e : ulpExp a + 52 = ilog2 a := by omega
    rw [e]
    exact (ilog2_spec ha).1
  have h1 : (2 : ℚ) ^ 52 ≤ a / pow2 (ulpExp a) := by
    rw [le_div_iff₀ (pow2_pos _), mul_comm, ← pow2_52]
    exact h0
  have h2 : (2 : Int) ^ 52 ≤ ⌊a / pow2 (ulpExp a)⌋ := by
    rw [Int.le_floor]
    exact_mod_cast h1
  have h3 := roundHalfEven_ge (a / pow2 (ulpExp a))
  have h4 : (2 : Int) ^ 52 ≤ roundHalfEven (a / pow2 (ulpExp a)) := le_trans h2 h3
  exact_mod_cast h4

theorem roundMag_mono {a b : ℚ} (ha : 0 < a) (hab : a ≤ b) : roundMag a ≤ roundMag b := by
  have hb : 0 < b := lt_of_lt_of_le ha hab
  rcases lt_or_eq_of_le (ulpExp_mono ha hab) with hE | hE
  · have hEb : ulpExp b = ilog2 b - 52 := by
      have h1 := ulpExp_ge a
      unfold ulpExp at hE ⊢
      rcases max_cases (ilog2 b - 52) (-1074) with ⟨h, -⟩ | ⟨h, -⟩
      · exact h
      · rw [h] at hE
        unfold ulpExp at h1
        omega
    calc roundMag a ≤ pow2 (ulpExp a + 53) := roundMag_le ha
      _ ≤ pow2 (ulpExp b + 52) := pow2_le_pow2 (by omega)
      _ ≤ roundMag b := roundMag_ge_of_normal hb hEb
  · unfold roundMag
    rw [hE]
    apply mul_le_mul_of_nonneg_right _ (pow2_pos _).le
    have : a / pow2 (ulpExp b) ≤ b / pow2 (ulpExp b) :=
      div_le_div_of_nonneg_right hab (pow2_pos _).le
    exact_mod_cast roundHalfEven_mono this

theorem roundMag_exact_lt (m : Nat) (e : Int) (hm : 0 < m) (hm2 : m < 2 ^ 53)
    (he : -1074 ≤ e) : roundMag ((m : ℚ) * pow2 e) = (m : ℚ) * pow2 e := by
  have hmq : (0 : ℚ) < (m : ℚ) := by exact_mod_cast hm
  have ha : 0 < (m : ℚ) * pow2 e := mul_pos hmq (pow2_pos e)
  have hlt : (m : ℚ) * pow2 e < pow2 (e + 53) := by
    rw [pow2_53, mul_comm]
    apply mul_lt_mul_of_pos_left _ (pow2_pos e)
    exact_mod_cast hm2
  have hE : ulpExp ((m : ℚ) * pow2 e) ≤ e := by
    have := ilog2_lt_of_lt_pow2 ha hlt
    unfold ulpExp
    exact max_le (by omega) he
  set E := ulpExp ((m : ℚ) * pow2 e) with hEdef
  have hsplit : pow2 e = pow2 (e - E) * pow2 E := by
    rw [← pow2_add]
    congr 1
    ring
  have hnat : pow2 (e - E) = (2 : ℚ) ^ (e - E).toNat := by
    rw [← pow2_natCast, Int.toNat_of_nonneg (by omega)]
  have hscaled : (m : ℚ) * pow2 e / pow2 E = ((m * 2 ^ (e - E).toNat : Nat) : Int) := by
    rw [hsplit, ← mul_assoc, mul_div_assoc, div_self (pow2_pos E).ne', mul_one, hnat]
    push_cast
    ring
  unfold roundMag
  rw [← hEdef, hscaled, roundHalfEven_intCast, ← hscaled]
  exact div_mul_cancel₀ _ (pow2_pos E).ne'

theorem roundMag_exact (m : Nat) (e : Int) (hm : 0 < m) (hm2 : m ≤ 2 ^ 53)
    (he : -1074 ≤ e) : roundMag ((m : ℚ) * pow2 e) = (m : ℚ) * pow2 e := by
  rcases lt_or_eq_of_le hm2 with h | h
  · exact roundMag_exact_lt m e hm h he
  · have e1 : (m : ℚ) * pow2 e = ((2 ^ 52 : Nat) : ℚ) * pow2 (e + 1) := by
      rw [h, pow2_add]
      push_cast
      have : pow2 1 = 2 := by norm_num [pow2]
      rw [this]
      ring
    rw [e1]
    exact roundMag_exact_lt (2 ^ 52) (e + 1) (by positivity) (by norm_num) (by omega)

theorem roundMag_decomp {a : ℚ} (ha : 0 < a) :
    ∃ M : Nat, M ≤ 2 ^ 53 ∧ roundMag a = (M : ℚ) * pow2 (ulpExp a) := by
  have h0 : 0 ≤ roundHalfEven (a / pow2 (ulpExp a)) :=
    roundHalfEven_nonneg (div_nonneg ha.le (pow2_pos _).le)
  have h1 : ⌊a / pow2 (ulpExp a)⌋ < 2 ^ 53 := by
    rw [Int.floor_lt]
    exact_mod_cast scaled_lt ha
  have h2 := roundHalfEven_le (a / pow2 (ulpExp a))
  refine ⟨(roundHalfEven (a / pow2 (ulpExp a))).toNat, by omega, ?_⟩
  unfold roundMag
  congr 1
  have : ((roundHalfEven (a / pow2 (ulpExp a))).toNat : Int)
      = roundHalfEven (a / pow2 (ulpExp a)) := Int.toNat_of_nonneg h0
  exact_mod_cast this.symm

theorem roundMag_idem {a : ℚ} (ha : 0 < a) : roundMag (roundMag a) = roundMag a := by
  obtain ⟨M, hM, hdec⟩ := roundMag_decomp ha
  rcases Nat.eq_zero_or_pos M with h0 | hpos
  · rw [hdec, h0]
    have : roundHalfEven 0 = 0 := roundHalfEven_intCast 0
    simp [roundMag, this]
  · rw [hdec]
    exact roundMag_exact M _ hpos hM (ulpExp_ge a)

/-! ## Rounded values -/

theorem round_zero (z : Bool) : Double.round 0 z = Double.zero z := by
  simp [Double.round]

theorem round_pos {q : ℚ} (hq : 0 < q) (z : Bool) :
    Double.round q z =
      if pow2 1024 ≤ roundMag q then Double.inf false
      else if roundMag q = 0 then Double.fin 0 else Double.fin (roundMag q) := by
  have h1 : ¬ q < 0 := not_lt.mpr hq.le
  simp [Double.round, hq.ne', abs_of_pos hq, h1, Double.zero]

theorem round_neg {q : ℚ} (hq : q < 0) (z : Bool) :
    Double.round q z =
      if pow2 1024 ≤ roundMag (-q) then Double.inf true
      else if roundMag (-q) = 0 then Double.negZero else Double.fin (-roundMag (-q)) := by
  simp [Double.round, hq.ne, abs_of_neg hq, hq, Double.zero]

theorem isDouble_zero : IsDouble 0 := by
  simp [IsDouble, round_zero, Double.zero]

theorem isDouble_pos_iff {q : ℚ} (hq : 0 < q) :
    IsDouble q ↔ roundMag q = q ∧ q < pow2 1024 := by
  unfold IsDouble
  rw [round_pos hq]
  constructor
  · intro h
    split_ifs at h with h1 h2
    · simp only [Double.fin.injEq] at h
      exact absurd h hq.ne
    · simp only [Double.fin.injEq] at h
      exact ⟨h, by rw [← h]; exact not_le.mp h1⟩
  · rintro ⟨h1, h2⟩
    rw [h1, if_neg (not_le.mpr h2), if_neg hq.ne']

theorem round_of_isDouble {q : ℚ} (h : IsDouble q) (hq : q ≠ 0) (z : Bool) :
    Double.round q z = Double.fin q := by
  unfold IsDouble at h
  simpa [Double.round, hq] using h

theorem isDouble_nat_mul_pow2 (m : Nat) (e : Int) (hm : m ≤ 2 ^ 53) (he : -1074 ≤ e)
    (hlt : (m : ℚ) * pow2 e < pow2 1024) : IsDouble ((m : ℚ) * pow2 e) := by
  rcases Nat.eq_zero_or_pos m with h0 | hpos
  · rw [h0]
    simpa using isDouble_zero
  · have hq : 0 < (m : ℚ) * pow2 e := mul_pos (by exact_mod_cast hpos) (pow2_pos e)
    exact (isDouble_pos_iff hq).mpr ⟨roundMag_exact m e hpos hm he, hlt⟩

theorem pow2_zero : pow2 0 = 1 := by simp [pow2]

theorem pow2_one : pow2 1 = 2 := by simp [pow2]

theorem pow2_1024_gt : (2 : ℚ) ^ 54 < pow2 1024 := by
  have : pow2 1024 = (2 : ℚ) ^ 1024 := pow2_natCast 1024
  rw [this]
  exact pow_lt_pow_right₀ (by norm_num) (by norm_num)

theorem isDouble_natCast (n : Nat) (h : n ≤ 2 ^ 53) : IsDouble (n : ℚ) := by
  have := isDouble_nat_mul_pow2 n 0 h (by norm_num) (by
    rw [pow2_zero, mul_one]
    have h1 : (n : ℚ) ≤ 2 ^ 53 := by exact_mod_cast h
    have h2 : (2 : ℚ) ^ 53 < 2 ^ 54 := by norm_num
    exact lt_trans (lt_of_le_of_lt h1 h2) pow2_1024_gt)
  simpa [pow2_zero] using this

theorem isDouble_two_mul (n : Nat) (h : n ≤ 2 ^ 53) : IsDouble (2 * (n : ℚ)) := by
  have := isDouble_nat_mul_pow2 n 1 h (by norm_num) (by
    rw [pow2_one]
    have h1 : (n : ℚ) ≤ 2 ^ 53 := by exact_mod_cast h
    have h2 : (n : ℚ) * 2 ≤ 2 ^ 54 := by linarith
    exact lt_of_le_of_lt h2 pow2_1024_gt)
  rw [pow2_one, mul_comm] at this
  exact this

/-- Rounding does not cross a value of type `double`. -/
theorem round_ge_double {c x : ℚ} (hc : 0 < c) (hcd : IsDouble c) (hx : c ≤ x) (z : Bool) :
    Double.round x z = Double.inf false ∨ ∃ r, Double.round x z = Double.fin r ∧ c ≤ r := by
  have hxpos : 0 < x := lt_of_lt_of_le hc hx
  have h1 : roundMag c = c := ((isDouble_pos_iff hc).mp hcd).1
  have h2 : c ≤ roundMag x := by
    rw [← h1]
    exact roundMag_mono hc hx
  rw [round_pos hxpos]
  split_ifs with ha hb
  · exact Or.inl rfl
  · rw [hb] at h2
    exact absurd h2 (not_le.mpr hc)
  · exact Or.inr ⟨_, rfl, h2⟩

theorem round_le_double {c x : ℚ} (hx : 0 < x) (hcd : IsDouble c) (hxc : x ≤ c) (z : Bool) :
    ∃ r, Double.round x z = Double.fin r ∧ 0 ≤ r ∧ r ≤ c := by
  have hc : 0 < c := lt_of_lt_of_le hx hxc
  obtain ⟨h1, h3⟩ := (isDouble_pos_iff hc).mp hcd
  have h2 : roundMag x ≤ c := by
    rw [← h1]
    exact roundMag_mono hx hxc
  rw [round_pos hx]
  have hlt : ¬ pow2 1024 ≤ roundMag x := not_le.mpr (lt_of_le_of_lt h2 h3)
  rw [if_neg hlt]
  split_ifs with hb
  · exact ⟨0, rfl, le_rfl, hc.le⟩
  · exact ⟨_, rfl, roundMag_nonneg hx.le, h2⟩

theorem round_nonneg_cases {x : ℚ} (hx : 0 ≤ x) :
    Double.round x false = Double.inf false ∨
      ∃ r, Double.round x false = Double.fin r ∧ 0 ≤ r := by
  rcases eq_or_lt_of_le hx with h0 | hpos
  · rw [← h0, round_zero]
    exact Or.inr ⟨0, rfl, le_rfl⟩
  · rw [round_pos hpos]
    split_ifs
    · exact Or.inl rfl
    · exact Or.inr ⟨0, rfl, le_rfl⟩
    · exact Or.inr ⟨_, rfl, roundMag_nonneg hx⟩

/-- The next value of type `double` above a positive one. -/
theorem isDouble_succ {w : ℚ} (hw : 0 < w) (hwd : IsDouble w) :
    roundMag (w + pow2 (ulpExp w)) = w + pow2 (ulpExp w) := by
  obtain ⟨M, hM, hdec⟩ := roundMag_decomp hw
  have h1 : roundMag w = w := ((isDouble_pos_iff hw).mp hwd).1
  rw [h1] at hdec
  have hsc := scaled_lt hw
  have hge := ulpExp_ge w
  generalize ulpExp w = E at hdec hsc hge ⊢
  have hlt : (M : ℚ) < 2 ^ 53 := by
    have e : w / pow2 E = (M : ℚ) := by
      rw [hdec, mul_div_assoc, div_self (pow2_pos _).ne', mul_one]
    rw [e] at hsc
    exact hsc
  have hM2 : M + 1 ≤ 2 ^ 53 := by
    have : M < 2 ^ 53 := by exact_mod_cast hlt
    omega
  have e : w + pow2 E = ((M + 1 : Nat) : ℚ) * pow2 E := by
    rw [hdec]
    push_cast
    ring
  rw [e]
  exact roundMag_exact (M + 1) _ (by omega) hM2 hge

theorem round_gt_double {w x : ℚ} (hw : 0 < w) (hwd : IsDouble w)
    (hx : w + pow2 (ulpExp w) ≤ x) (z : Bool) :
    Double.round x z = Double.inf false ∨ ∃ r, Double.round x z = Double.fin r ∧ w < r := by
  have hstep : 0 < w + pow2 (ulpExp w) := add_pos hw (pow2_pos _)
  have hxpos : 0 < x := lt_of_lt_of_le hstep hx
  have h2 : w + pow2 (ulpExp w) ≤ roundMag x := by
    rw [← isDouble_succ hw hwd]
    exact roundMag_mono hstep hx
  have h3 : w < roundMag x := lt_of_lt_of_le (lt_add_of_pos_right w (pow2_pos _)) h2
  rw [round_pos hxpos]
  split_ifs with ha hb
  · exact Or.inl rfl
  · rw [hb] at h3
    exact absurd h3 (not_lt.mpr hw.le)
  · exact Or.inr ⟨_, rfl, h3⟩

/-! ## Literals and comparisons -/

theorem lit_zero : Double.lit 0 = Double.fin 0 := by decide!

theorem lit_zero_dec : Double.lit 0.0 = Double.fin 0 := by decide!

theorem lit_one : Double.lit 1 = Double.fin 1 := by decide!

theorem lit_one_dec : Double.lit 1.0 = Double.fin 1 := by decide!

theorem lit_two : Double.lit 2 = Double.fin 2 := by decide!

theorem lit_two_dec : Double.lit 2.0 = Double.fin 2 := by decide!

theorem lit_three_halves : Double.lit 1.5 = Double.fin (3 / 2) := by decide!

theorem lit_four : Double.lit 4 = Double.fin 4 := by decide!

theorem lit_fourteen : Double.lit 14.0 = Double.fin 14 := by decide!

theorem lit_eighty : Double.lit 80 = Double.fin 80 := by decide!

theorem lit_fifth :
    Double.lit 0.2 = Double.fin (3602879701896397 / 18014398509481984) := by decide!

theorem fresh_eq :
    fresh =
      { timeouts_thresh := .fin 0, num_timeouts := 0, the_window_size := .fin 14,
        slow_start := true, rto := .fin 80, estimate_rtt := .fin 80, phi := .fin 4,
        sigma := .fin (3602879701896397 / 18014398509481984), deviation := .fin 0,
        ssthresh := 999999 } := by
  simp only [fresh, lit_zero, lit_zero_dec, lit_four, lit_fourteen, lit_eighty, lit_fifth]

theorem fresh_window : fresh.the_window_size = .fin 14 := by rw [fresh_eq]

theorem fresh_thresh : fresh.timeouts_thresh = .fin 0 := by rw [fresh_eq]

theorem fresh_rto : fresh.rto = .fin 80 := by rw [fresh_eq]

theorem lt_fin_fin (a b : ℚ) : Double.lt (.fin a) (.fin b) = decide (a < b) := rfl

theorem le_fin_fin (a b : ℚ) : Double.le (.fin a) (.fin b) = decide (a ≤ b) := rfl

theorem ge_ofUInt_fin (n : Nat) (T : ℚ) :
    Double.ge (Double.ofUInt n) (.fin T) = decide (T ≤ (n : ℚ)) := rfl

theorem lt_ofUInt_fin (n : Nat) (T : ℚ) :
    Double.lt (Double.ofUInt n) (.fin T) = decide ((n : ℚ) < T) := rfl

theorem ge_false_of_lt {x y : Double} (h : Double.lt x y = true) : Double.ge x y = false := by
  cases x <;> cases y <;> simp_all [Double.lt, Double.ge, Double.le, Double.value]

/-! ## Conversions -/

theorem truncate_of_nonneg {x : ℚ} (h : 0 ≤ x) : truncate x = ⌊x⌋ := by
  simp [truncate, h]

theorem toUnsigned_of_nonneg {x : ℚ} (h0 : 0 ≤ x) (h1 : x < 2 ^ 32) :
    toUnsigned (.fin x) = some ⌊x⌋.toNat := by
  have hlt : ⌊x⌋ < ((2 ^ 32 : Nat) : Int) := by
    rw [Int.floor_lt]
    push_cast
    exact h1
  have hlt2 : ⌊x⌋ < (4294967296 : Int) := by
    norm_num at hlt
    exact hlt
  simp [toUnsigned, truncate_of_nonneg h0, Int.floor_nonneg.mpr h0, UINT_SIZE, hlt2]

theorem toUnsigned_of_large {x : ℚ} (h : 2 ^ 32 ≤ x) : toUnsigned (.fin x) = none := by
  have h0 : (0 : ℚ) ≤ x := le_trans (by norm_num) h
  have hge : ((2 ^ 32 : Nat) : Int) ≤ ⌊x⌋ := by
    rw [Int.le_floor]
    push_cast
    exact h
  simp only [toUnsigned, truncate_of_nonneg h0, UINT_SIZE]
  rw [if_neg]
  intro hc
  exact absurd hc.2 (not_lt.mpr hge)

theorem toUnsigned_lt {x : Double} {v : Nat} (h : toUnsigned x = some v) : v < UINT_SIZE := by
  cases x with
  | fin q =>
    simp only [toUnsigned] at h
    split at h
    · rename_i hc
      simp only [Option.some.injEq] at h
      omega
    · simp at h
  | negZero =>
    simp only [toUnsigned, Option.some.injEq] at h
    rw [← h]
    decide
  | inf n => simp [toUnsigned] at h
  | nan => simp [toUnsigned] at h

theorem toUnsigned_natCast (n : Nat) (h : n < 2 ^ 32) : toUnsigned (.fin (n : ℚ)) = some n := by
  have h1 : ((n : Nat) : ℚ) < 2 ^ 32 := by exact_mod_cast h
  rw [toUnsigned_of_nonneg (Nat.cast_nonneg n) h1]
  simp

/-! ## `window_size` -/

theorem clampWindow_eq (w : Double) :
    clampWindow w = if Double.lt w (.fin 1) then .fin 1 else w := by
  simp only [clampWindow, lit_one, lit_one_dec]

theorem clampWindow_fin (q : ℚ) : clampWindow (.fin q) = .fin (max 1 q) := by
  rw [clampWindow_eq, lt_fin_fin]
  by_cases h : q < 1
  · simp [h, max_eq_left h.le]
  · simp [h, max_eq_right (not_lt.mp h)]

theorem window_size_eq (s : State) :
    window_size s =
      (toUnsigned (clampWindow s.the_window_size)).map
        fun v => (v, { s with the_window_size := clampWindow s.the_window_size }) := by
  unfold window_size clampWindow
  split_ifs with h
  · rfl
  · cases s
    rfl

theorem window_size_of_lt (s : State) (q : ℚ) (hq : s.the_window_size = .fin q)
    (h : q < 2 ^ 32) :
    window_size s = some ((max 1 ⌊q⌋).toNat, { s with the_window_size := .fin (max 1 q) }) := by
  rw [window_size_eq, hq, clampWindow_fin]
  by_cases h1 : q < 1
  · have hfl : ⌊q⌋ ≤ 1 := by
      have : ⌊q⌋ < 1 := by
        rw [Int.floor_lt]
        exact_mod_cast h1
      omega
    have hu : toUnsigned (.fin (1 : ℚ)) = some 1 := by
      simpa using toUnsigned_natCast 1 (by norm_num)
    simp [h1, hu, max_eq_left hfl, max_eq_left h1.le]
  · have h1 : 1 ≤ q := not_lt.mp h1
    have hfl : 1 ≤ ⌊q⌋ := by
      rw [Int.le_floor]
      exact_mod_cast h1
    have hu := toUnsigned_of_nonneg (le_trans zero_le_one h1) h
    simp [not_lt.mpr h1, hu, max_eq_right hfl, max_eq_right h1]

theorem window_size_of_large (s : State) (q : ℚ) (hq : s.the_window_size = .fin q)
    (h : 2 ^ 32 ≤ q) : window_size s = none := by
  have h1 : (1 : ℚ) ≤ q := le_trans (by norm_num) h
  rw [window_size_eq, hq, clampWindow_fin, max_eq_right h1]
  simp [toUnsigned_of_large h]

theorem window_size_of_low (s : State)
    (h : s.the_window_size = .negZero ∨ s.the_window_size = .inf true) :
    window_size s = some (1, { s with the_window_size := .fin 1 }) := by
  have hu : toUnsigned (.fin (1 : ℚ)) = some 1 := by
    simpa using toUnsigned_natCast 1 (by norm_num)
  rw [window_size_eq, clampWindow_eq]
  rcases h with h | h <;> rw [h] <;> simp [Double.lt, Double.value, hu]

theorem window_size_of_undefined (s : State)
    (h : s.the_window_size = .inf false ∨ s.the_window_size = .nan) :
    window_size s = none := by
  rw [window_size_eq, clampWindow_eq]
  rcases h with h | h <;> rw [h] <;> simp [Double.lt, toUnsigned]

theorem window_size_state {s s1 : State} {v : Nat} (h : window_size s = some (v, s1)) :
    s1 = { s with the_window_size := clampWindow s.the_window_size } ∧ 1 ≤ v := by
  have h0 := h
  rw [window_size_eq] at h
  simp only [Option.map_eq_some', Prod.mk.injEq] at h
  obtain ⟨a, ha, hav, hs⟩ := h
  refine ⟨hs.symm, ?_⟩
  cases hw : s.the_window_size with
  | fin q =>
    by_cases hlt : q < 2 ^ 32
    · rw [window_size_of_lt s q hw hlt] at h0
      simp only [Option.some.injEq, Prod.mk.injEq] at h0
      rw [← h0.1]
      have : (1 : Int) ≤ max 1 ⌊q⌋ := le_max_left _ _
      omega
    · rw [window_size_of_large s q hw (not_lt.mp hlt)] at h0
      simp at h0
  | negZero =>
    rw [window_size_of_low s (Or.inl hw)] at h0
    simp only [Option.some.injEq, Prod.mk.injEq] at h0
    omega
  | inf n =>
    cases n with
    | true =>
      rw [window_size_of_low s (Or.inr hw)] at h0
      simp only [Option.some.injEq, Prod.mk.injEq] at h0
      omega
    | false =>
      rw [window_size_of_undefined s (Or.inl hw)] at h0
      simp at h0
  | nan =>
    rw [window_size_of_undefined s (Or.inr hw)] at h0
    simp at h0

theorem clampWindow_idem (w : Double) : clampWindow (clampWindow w) = clampWindow w := by
  rw [clampWindow_eq w]
  split_ifs with hc
  · rw [clampWindow_fin]
    simp
  · rw [clampWindow_eq, if_neg hc]

theorem window_size_fix {s s1 : State} {v : Nat} (h : window_size s = some (v, s1)) :
    window_size s1 = some (v, s1) := by
  have hs := (window_size_state h).1
  rw [window_size_eq] at h ⊢
  simp only [Option.map_eq_some', Prod.mk.injEq] at h
  obtain ⟨a, ha, hav, -⟩ := h
  have hw : s1.the_window_size = clampWindow s.the_window_size := by rw [hs]
  rw [hw, clampWindow_idem, ha, ← hav, ← hw]
  cases s1
  rfl

theorem window_size_natCast (s : State) (k : Nat) (h1 : 1 ≤ k) (hk : k < 2 ^ 32)
    (hws : s.the_window_size = .fin (k : ℚ)) : window_size s = some (k, s) := by
  have hge : ¬ ((k : ℚ) < 1) := by
    rw [not_lt]
    exact_mod_cast h1
  have hc : clampWindow (.fin (k : ℚ)) = .fin (k : ℚ) := by
    rw [clampWindow_fin, max_eq_right (not_lt.mp hge)]
  rw [window_size_eq, hws, hc, toUnsigned_natCast k hk, ← hws]
  cases s
  rfl

/-! ## `ack_received` -/

theorem ack_received_of_timeout {s : State} {t : Nat} (ht : timeout_ms s = some t)
    (n a b c : Nat) : ack_received s n a b c = some (update s (rtt_of a c) t) := by
  simp [ack_received, ht]

theorem update_timely_slow_start (s : State) {rtt t : Nat} (hrtt : rtt ≤ t)
    (hss : s.slow_start = true) :
    update s rtt t = { s with the_window_size := Double.add s.the_window_size (.fin 2) } := by
  simp [update, not_lt.mpr hrtt, hss, lit_two]

theorem update_timely_avoidance (s : State) {rtt t : Nat} (hrtt : rtt ≤ t)
    (hss : s.slow_start = false) :
    update s rtt t =
      { s with
        the_window_size :=
          Double.add s.the_window_size (Double.div (.fin (3 / 2)) s.the_window_size) } := by
  simp [update, not_lt.mpr hrtt, hss, lit_three_halves]

theorem update_late_backoff (s : State) {rtt t : Nat} (hrtt : t < rtt)
    (hn : Double.ge (Double.ofUInt s.num_timeouts) s.timeouts_thresh = true) :
    update s rtt t = { s with
      slow_start := false
      num_timeouts := 0
      timeouts_thresh := s.the_window_size
      the_window_size := Double.div s.the_window_size (.fin 2) } := by
  simp [update, hrtt, hn, lit_two_dec]

theorem update_late_count (s : State) {rtt t : Nat} (hrtt : t < rtt)
    (hn : Double.ge (Double.ofUInt s.num_timeouts) s.timeouts_thresh = false) :
    update s rtt t = { s with
      slow_start := false
      num_timeouts := (s.num_timeouts + 1) % UINT_SIZE } := by
  simp [update, hrtt, hn]

theorem timeout_ms_of_rto {s : State} (h : s.rto = .fin 80) : timeout_ms s = some 80 := by
  rw [timeout_ms, h]
  simpa using toUnsigned_natCast 80 (by norm_num)

theorem timeout_ms_fresh : timeout_ms fresh = some 80 := timeout_ms_of_rto fresh_rto

/-! ## Runs -/

theorem update_frame (s : State) (rtt t : Nat) :
    (update s rtt t).rto = s.rto ∧ (update s rtt t).estimate_rtt = s.estimate_rtt ∧
      (update s rtt t).deviation = s.deviation ∧ (update s rtt t).ssthresh = s.ssthresh ∧
      (update s rtt t).phi = s.phi ∧ (update s rtt t).sigma = s.sigma := by
  rcases Nat.lt_or_ge t rtt with hr | hr
  · rcases Bool.eq_false_or_eq_true
        (Double.ge (Double.ofUInt s.num_timeouts) s.timeouts_thresh) with hn | hn
    · simp [update_late_backoff s hr hn]
    · simp [update_late_count s hr hn]
  · cases hss : s.slow_start
    · simp [update_timely_avoidance s hr hss]
    · simp [update_timely_slow_start s hr hss]

theorem update_slow_start_false (s : State) (rtt t : Nat) (h : s.slow_start = false) :
    (update s rtt t).slow_start = false := by
  rcases Nat.lt_or_ge t rtt with hr | hr
  · rcases Bool.eq_false_or_eq_true
        (Double.ge (Double.ofUInt s.num_timeouts) s.timeouts_thresh) with hn | hn
    · simp [update_late_backoff s hr hn]
    · simp [update_late_count s hr hn]
  · simp [update_timely_avoidance s hr h, h]

theorem update_slow_start_change (s : State) (rtt t : Nat) (h1 : s.slow_start = true)
    (h2 : (update s rtt t).slow_start = false) : t < rtt := by
  by_contra hle
  rw [update_timely_slow_start s (not_lt.mp hle) h1] at h2
  simp [h1] at h2

theorem step_cases {s s1 : State} {c : Call} {r : Option Nat}
    (h : step s c = some (r, s1)) :
    (c = .window_size ∧ s1 = { s with the_window_size := clampWindow s.the_window_size } ∧
        ∃ v, r = some v ∧ 1 ≤ v) ∨
      (∃ n t, c = .datagram_was_sent n t ∧ s1 = s ∧ r = none) ∨
      (∃ n a b d t, c = .ack_received n a b d ∧ timeout_ms s = some t ∧
        s1 = update s (rtt_of a d) t ∧ r = none) := by
  cases c with
  | window_size =>
    left
    simp only [step, Option.map_eq_some', Prod.mk.injEq] at h
    obtain ⟨⟨v, s2⟩, hw, hv, hs⟩ := h
    have := window_size_state hw
    simp only at hv hs
    subst hs
    exact ⟨rfl, this.1, v, hv.symm, this.2⟩
  | datagram_was_sent n t =>
    right; left
    simp only [step, datagram_was_sent, Option.some.injEq, Prod.mk.injEq] at h
    exact ⟨n, t, rfl, h.2.symm, h.1.symm⟩
  | ack_received n a b d =>
    right; right
    simp only [step, Option.map_eq_some', Prod.mk.injEq] at h
    obtain ⟨s2, ha, hr, hs⟩ := h
    subst hs
    cases ht : timeout_ms s with
    | none => simp [ack_received, ht] at ha
    | some t =>
      rw [ack_received_of_timeout ht] at ha
      simp only [Option.some.injEq] at ha
      exact ⟨n, a, b, d, t, rfl, rfl, ha.symm, hr.symm⟩

theorem run_cons_some {s s2 : State} {c : Call} {cs : List Call} {outs : List Nat}
    (h : run s (c :: cs) = some (outs, s2)) :
    ∃ r s1 outs1, step s c = some (r, s1) ∧ run s1 cs = some (outs1, s2) ∧
      outs = r.toList ++ outs1 := by
  simp only [run] at h
  split at h
  · simp at h
  · rename_i r s1 hstep
    split at h
    · simp at h
    · rename_i outs1 s3 hrun
      simp only [Option.some.injEq, Prod.mk.injEq] at h
      exact ⟨r, s1, outs1, hstep, by rw [hrun, h.2], h.1.symm⟩

theorem run_invariant (P : State → Prop)
    (hstep : ∀ s c r s1, P s → step s c = some (r, s1) → P s1) :
    ∀ (cs : List Call) (s : State) (outs : List Nat) (s2 : State),
      P s → run s cs = some (outs, s2) → P s2 := by
  intro cs
  induction cs with
  | nil =>
    intro s outs s2 hP h
    simp only [run, Option.some.injEq, Prod.mk.injEq] at h
    rw [← h.2]
    exact hP
  | cons c cs ih =>
    intro s outs s2 hP h
    obtain ⟨r, s1, outs1, h1, h2, -⟩ := run_cons_some h
    exact ih s1 outs1 s2 (hstep s c r s1 hP h1) h2

theorem step_slow_start_false {s s1 : State} {c : Call} {r : Option Nat}
    (h : step s c = some (r, s1)) (hf : s.slow_start = false) : s1.slow_start = false := by
  rcases step_cases h with ⟨-, hs, -⟩ | ⟨n, t, -, hs, -⟩ | ⟨n, a, b, d, t, -, -, hs, -⟩
  · rw [hs]; exact hf
  · rw [hs]; exact hf
  · rw [hs]; exact update_slow_start_false s _ _ hf

theorem step_rto {s s1 : State} {c : Call} {r : Option Nat}
    (h : step s c = some (r, s1)) : s1.rto = s.rto := by
  rcases step_cases h with ⟨-, hs, -⟩ | ⟨n, t, -, hs, -⟩ | ⟨n, a, b, d, t, -, -, hs, -⟩
  · rw [hs]
  · rw [hs]
  · rw [hs]; exact (update_frame s _ _).1

theorem run_fresh_rto {cs : List Call} {outs : List Nat} {s : State}
    (h : run fresh cs = some (outs, s)) : s.rto = .fin 80 :=
  run_invariant (fun s => s.rto = .fin 80)
    (fun _ _ _ _ hP hs => (step_rto hs).trans hP) cs fresh outs s fresh_rto h

theorem changes_of_false (s : State) (hf : s.slow_start = false) (cs : List Call) :
    changes (false :: phases s cs) = 0 := by
  induction cs generalizing s with
  | nil => simp [phases, changes]
  | cons c cs ih =>
    simp only [phases]
    split
    · simp [changes]
    · rename_i r s1 hstep
      have h1 := step_slow_start_false hstep hf
      rw [h1]
      simp only [changes, if_true, zero_add]
      exact ih s1 h1

theorem changes_le_one (s : State) (cs : List Call) :
    changes (s.slow_start :: phases s cs) ≤ 1 := by
  induction cs generalizing s with
  | nil => simp [phases, changes]
  | cons c cs ih =>
    simp only [phases]
    split
    · simp [changes]
    · rename_i r s1 hstep
      cases h1 : s1.slow_start with
      | true =>
        have := ih s1
        rw [h1] at this
        cases h0 : s.slow_start <;> simp [changes] at this ⊢
        · have := step_slow_start_false hstep h0
          simp [h1] at this
        · exact this
      | false =>
        have := changes_of_false s1 h1 cs
        cases h0 : s.slow_start <;> simp [changes, this]

theorem run_length {cs : List Call} {s s2 : State} {outs : List Nat}
    (h : run s cs = some (outs, s2)) : (phases s cs).length = cs.length := by
  induction cs generalizing s outs with
  | nil => simp [phases]
  | cons c cs ih =>
    obtain ⟨r, s1, outs1, h1, h2, -⟩ := run_cons_some h
    simp [phases, h1, ih h2]

theorem run_outputs {cs : List Call} {s s2 : State} {outs : List Nat}
    (h : run s cs = some (outs, s2)) : ∀ v ∈ outs, 1 ≤ v := by
  induction cs generalizing s outs with
  | nil =>
    simp only [run, Option.some.injEq, Prod.mk.injEq] at h
    rw [← h.1]
    simp
  | cons c cs ih =>
    obtain ⟨r, s1, outs1, h1, h2, ho⟩ := run_cons_some h
    intro v hv
    rw [ho, List.mem_append] at hv
    rcases hv with hv | hv
    · rcases step_cases h1 with ⟨-, -, w, hw, h1w⟩ | ⟨n, t, -, -, hr⟩ |
        ⟨n, a, b, d, t, -, -, -, hr⟩
      · rw [hw] at hv
        simp only [Option.toList, List.mem_singleton] at hv
        rw [hv]
        exact h1w
      · rw [hr] at hv
        simp at hv
      · rw [hr] at hv
        simp at hv
    · exact ih h2 v hv

theorem update_late_slow_start (s : State) {rtt t : Nat} (hr : t < rtt) :
    (update s rtt t).slow_start = false := by
  rcases Bool.eq_false_or_eq_true
      (Double.ge (Double.ofUInt s.num_timeouts) s.timeouts_thresh) with hn | hn
  · simp [update_late_backoff s hr hn]
  · simp [update_late_count s hr hn]

theorem rtt_of_wrapped {a c : Nat} (ha : a < UINT64_SIZE) (hlt : c < a) :
    rtt_of a c = UINT64_SIZE - (a - c) := by
  simp only [rtt_of, UINT64_SIZE, Nat.reducePow] at *
  omega

theorem rtt_of_zero {x : Nat} (hx : x < UINT64_SIZE) : rtt_of 0 x = x := by
  simp only [rtt_of, UINT64_SIZE, Nat.reducePow] at *
  omega

/-! ## Sequences of acks -/

theorem run_ack {s : State} {t : Nat} (ht : timeout_ms s = some t) (n a b d : Nat)
    (cs : List Call) :
    run s (.ack_received n a b d :: cs) = run (update s (rtt_of a d) t) cs := by
  simp only [run, step, ack_received_of_timeout ht, Option.map_some']
  cases run (update s (rtt_of a d) t) cs with
  | none => rfl
  | some r => simp

theorem run_append {s s1 s2 : State} {xs ys : List Call} {o1 o2 : List Nat}
    (h1 : run s xs = some (o1, s1)) (h2 : run s1 ys = some (o2, s2)) :
    run s (xs ++ ys) = some (o1 ++ o2, s2) := by
  induction xs generalizing s o1 with
  | nil =>
    simp only [run, Option.some.injEq, Prod.mk.injEq] at h1
    obtain ⟨rfl, rfl⟩ := h1
    simpa using h2
  | cons c cs ih =>
    obtain ⟨r, s3, o3, hs, hr, ho⟩ := run_cons_some h1
    have := ih hr
    rw [List.cons_append]
    simp only [run, hs, this, ho, List.append_assoc]

theorem run_append_none {s s1 : State} {xs ys : List Call} {o1 : List Nat}
    (h1 : run s xs = some (o1, s1)) (h2 : run s1 ys = none) : run s (xs ++ ys) = none := by
  induction xs generalizing s o1 with
  | nil =>
    simp only [run, Option.some.injEq, Prod.mk.injEq] at h1
    obtain ⟨rfl, rfl⟩ := h1
    simpa using h2
  | cons c cs ih =>
    obtain ⟨r, s3, o3, hs, hr, ho⟩ := run_cons_some h1
    have := ih hr
    rw [List.cons_append]
    simp only [run, hs, this]

theorem timeout_ms_update (s : State) (rtt t : Nat) :
    timeout_ms (update s rtt t) = timeout_ms s := by
  simp only [timeout_ms, (update_frame s rtt t).1]

theorem isTimely_ack {t : Nat} {c : Call} (h : isTimely t c = true) :
    ∃ n a b d, c = .ack_received n a b d ∧ rtt_of a d ≤ t := by
  cases c with
  | window_size => simp [isTimely] at h
  | datagram_was_sent n u => simp [isTimely] at h
  | ack_received n a b d => exact ⟨n, a, b, d, rfl, by simpa [isTimely] using h⟩

theorem isLate_ack {t : Nat} {c : Call} (h : isLate t c = true) :
    ∃ n a b d, c = .ack_received n a b d ∧ t < rtt_of a d := by
  cases c with
  | window_size => simp [isLate] at h
  | datagram_was_sent n u => simp [isLate] at h
  | ack_received n a b d => exact ⟨n, a, b, d, rfl, by simpa [isLate] using h⟩

/-! ## Window arithmetic -/

theorem add_fin_fin (a b : ℚ) :
    Double.add (.fin a) (.fin b) = Double.round (a + b) (decide (a < 0) && decide (b < 0)) :=
  rfl

theorem div_fin_fin (a b : ℚ) (hb : b ≠ 0) :
    Double.div (.fin a) (.fin b)
      = Double.round (a / b) (xor (decide (a < 0)) (decide (b < 0))) := by
  simp [Double.div, Double.isZero, hb, Double.value, Double.signBit]

theorem add_two_exact (q : ℚ) (h : IsDouble (q + 2)) :
    Double.add (.fin q) (.fin 2) = .fin (q + 2) := by
  rw [add_fin_fin]
  by_cases h0 : q + 2 = 0
  · rw [h0, round_zero]
    simp [Double.zero]
  · exact round_of_isDouble h h0 _

theorem half_exact (q : ℚ) (h : IsDouble (q / 2)) :
    Double.div (.fin q) (.fin 2) = .fin (q / 2) := by
  rw [div_fin_fin q 2 (by norm_num)]
  by_cases h0 : q / 2 = 0
  · have hq : q = 0 := by
      rcases div_eq_zero_iff.mp h0 with h | h
      · exact h
      · norm_num at h
    rw [h0, round_zero, hq]
    simp [Double.zero]
  · exact round_of_isDouble h h0 _

theorem add_sticks : Double.add (.fin (2 ^ 54)) (.fin 2) = .fin (2 ^ 54) := by decide!

theorem round_nonneg_any {x : ℚ} (hx : 0 < x) (z : Bool) :
    (Double.round x z).NonNeg := by
  rw [round_pos hx]
  split_ifs
  · exact Or.inl rfl
  · exact Or.inr ⟨0, rfl, le_rfl⟩
  · exact Or.inr ⟨_, rfl, roundMag_nonneg hx.le⟩

theorem round_nonneg {x : ℚ} (hx : 0 ≤ x) : (Double.round x false).NonNeg := by
  rcases eq_or_lt_of_le hx with h0 | hpos
  · rw [← h0, round_zero]
    exact Or.inr ⟨0, rfl, le_rfl⟩
  · exact round_nonneg_any hpos false

theorem nonNeg_add {x y : Double} (hx : x.NonNeg) (hy : y.NonNeg) : (Double.add x y).NonNeg := by
  rcases hx with rfl | ⟨a, rfl, ha⟩ <;> rcases hy with rfl | ⟨b, rfl, hb⟩
  · exact Or.inl rfl
  · exact Or.inl rfl
  · exact Or.inl rfl
  · rw [add_fin_fin]
    have : decide (a < 0) = false := by simpa using ha
    rw [this, Bool.false_and]
    exact round_nonneg (add_nonneg ha hb)

theorem nonNeg_half {x : Double} (hx : x.NonNeg) : (Double.div x (.fin 2)).NonNeg := by
  rcases hx with rfl | ⟨a, rfl, ha⟩
  · exact Or.inl rfl
  · rw [div_fin_fin a 2 (by norm_num)]
    have h1 : decide (a < 0) = false := by simpa using ha
    have h2 : decide ((2 : ℚ) < 0) = false := by simp
    rw [h1, h2]
    exact round_nonneg (div_nonneg ha (by norm_num))

theorem nonNeg_grow {x : Double} (hx : x.NonNeg) :
    (Double.div (.fin (3 / 2)) x).NonNeg := by
  rcases hx with rfl | ⟨a, rfl, ha⟩
  · exact Or.inr ⟨0, by decide!, le_rfl⟩
  · rcases eq_or_lt_of_le ha with h0 | hpos
    · rw [← h0]
      exact Or.inl (by decide!)
    · rw [div_fin_fin _ a hpos.ne']
      exact round_nonneg_any (div_pos (by norm_num) hpos) _

theorem nonNeg_clamp {x : Double} (hx : x.NonNeg) : (clampWindow x).NonNeg := by
  rw [clampWindow_eq]
  split_ifs
  · exact Or.inr ⟨1, rfl, zero_le_one⟩
  · exact hx

theorem nonNeg_two : (Double.fin 2).NonNeg := Or.inr ⟨2, rfl, by norm_num⟩

theorem update_nonNeg (s : State) (rtt t : Nat)
    (h : s.the_window_size.NonNeg ∧ s.timeouts_thresh.NonNeg) :
    (update s rtt t).the_window_size.NonNeg ∧ (update s rtt t).timeouts_thresh.NonNeg := by
  obtain ⟨hw, hT⟩ := h
  rcases Nat.lt_or_ge t rtt with hr | hr
  · rcases Bool.eq_false_or_eq_true
        (Double.ge (Double.ofUInt s.num_timeouts) s.timeouts_thresh) with hn | hn
    · rw [update_late_backoff s hr hn]
      exact ⟨nonNeg_half hw, hw⟩
    · rw [update_late_count s hr hn]
      exact ⟨hw, hT⟩
  · rcases Bool.eq_false_or_eq_true s.slow_start with hss | hss
    · rw [update_timely_slow_start s hr hss]
      exact ⟨nonNeg_add hw nonNeg_two, hT⟩
    · rw [update_timely_avoidance s hr hss]
      exact ⟨nonNeg_add hw (nonNeg_grow hw), hT⟩

theorem step_nonNeg {s s1 : State} {c : Call} {r : Option Nat}
    (hstep : step s c = some (r, s1))
    (h : s.the_window_size.NonNeg ∧ s.timeouts_thresh.NonNeg) :
    s1.the_window_size.NonNeg ∧ s1.timeouts_thresh.NonNeg := by
  rcases step_cases hstep with ⟨-, he, -⟩ | ⟨n, t, -, he, -⟩ | ⟨n, a, b, d, t, -, -, he, -⟩
  · rw [he]
    exact ⟨nonNeg_clamp h.1, h.2⟩
  · rw [he]
    exact h
  · rw [he]
    exact update_nonNeg s _ _ h

theorem run_fresh_nonNeg {cs : List Call} {outs : List Nat} {s : State}
    (h : run fresh cs = some (outs, s)) :
    s.the_window_size.NonNeg ∧ s.timeouts_thresh.NonNeg :=
  run_invariant (fun s => s.the_window_size.NonNeg ∧ s.timeouts_thresh.NonNeg)
    (fun _ _ _ _ hP hs => step_nonNeg hs hP) cs fresh outs s
    ⟨Or.inr ⟨14, fresh_window, by norm_num⟩, Or.inr ⟨0, fresh_thresh, le_rfl⟩⟩ h

/-! ## Long runs of timely acks and of late acks -/

theorem run_timely_exact (cs : List Call) (s : State) (t j : Nat)
    (ht : timeout_ms s = some t) (hss : s.slow_start = true)
    (hall : ∀ c ∈ cs, isTimely t c = true)
    (hw : s.the_window_size = .fin (2 * (j : ℚ))) (hj : j + cs.length ≤ 2 ^ 53) :
    run s cs = some ([], { s with the_window_size := .fin (2 * ((j + cs.length : Nat) : ℚ)) }) := by
  induction cs generalizing s j with
  | nil =>
    simp only [run, List.length_nil, Nat.add_zero, ← hw]
  | cons c cs ih =>
    obtain ⟨n, a, b, d, rfl, hr⟩ := isTimely_ack (hall _ (List.mem_cons_self _ cs))
    simp only [List.length_cons] at hj ⊢
    have hexact : Double.add s.the_window_size (.fin 2) = .fin (2 * ((j + 1 : Nat) : ℚ)) := by
      rw [hw, add_two_exact]
      · congr 1
        push_cast
        ring
      · have := isDouble_two_mul (j + 1) (by omega)
        have e : 2 * (j : ℚ) + 2 = 2 * ((j + 1 : Nat) : ℚ) := by
          push_cast
          ring
        rw [e]
        exact this
    rw [run_ack ht, update_timely_slow_start s hr hss, hexact,
      ih { s with the_window_size := .fin (2 * ((j + 1 : Nat) : ℚ)) } (j + 1) ht hss
        (fun c hc => hall c (List.mem_cons_of_mem _ hc)) rfl (by omega)]
    have e : j + 1 + cs.length = j + (cs.length + 1) := by omega
    simp only [e]

theorem run_timely_stuck (cs : List Call) (s : State) (t : Nat)
    (ht : timeout_ms s = some t) (hss : s.slow_start = true)
    (hall : ∀ c ∈ cs, isTimely t c = true)
    (hw : s.the_window_size = .fin (2 ^ 54)) : run s cs = some ([], s) := by
  induction cs with
  | nil => rfl
  | cons c cs ih =>
    obtain ⟨n, a, b, d, rfl, hr⟩ := isTimely_ack (hall _ (List.mem_cons_self _ cs))
    have hsame : ({ s with the_window_size := Double.add s.the_window_size (.fin 2) } : State)
        = s := by
      rw [hw, add_sticks, ← hw]
    rw [run_ack ht, update_timely_slow_start s hr hss, hsame]
    exact ih (fun c hc => hall c (List.mem_cons_of_mem _ hc))

theorem fresh_after_timely (cs : List Call) (hall : ∀ c ∈ cs, isTimely 80 c = true)
    (hlen : 14 + 2 * cs.length ≤ 2 ^ 54) :
    run fresh cs = some ([], { fresh with the_window_size := .fin (14 + 2 * (cs.length : ℚ)) }) := by
  have hw : fresh.the_window_size = .fin (2 * ((7 : Nat) : ℚ)) := by
    rw [fresh_window]
    norm_num
  rw [run_timely_exact cs fresh 80 7 timeout_ms_fresh rfl hall hw (by omega)]
  congr 3
  push_cast
  ring_nf

theorem fresh_after_many_timely (cs : List Call) (hall : ∀ c ∈ cs, isTimely 80 c = true)
    (hlen : 2 ^ 54 ≤ 14 + 2 * cs.length) :
    run fresh cs = some ([], { fresh with the_window_size := .fin (2 ^ 54) }) := by
  have hsplit : cs = cs.take 9007199254740985 ++ cs.drop 9007199254740985 :=
    (List.take_append_drop _ cs).symm
  have hl : (cs.take 9007199254740985).length = 9007199254740985 := by
    rw [List.length_take]
    omega
  have h1 := fresh_after_timely (cs.take 9007199254740985)
    (fun c hc => hall c (List.mem_of_mem_take hc)) (by rw [hl]; norm_num)
  rw [hl] at h1
  have e : (14 : ℚ) + 2 * ((9007199254740985 : Nat) : ℚ) = 2 ^ 54 := by norm_num
  rw [e] at h1
  have h2 := run_timely_stuck (cs.drop 9007199254740985)
    { fresh with the_window_size := .fin (2 ^ 54) } 80 (timeout_ms_of_rto fresh_rto) rfl
    (fun c hc => hall c (List.mem_of_mem_drop hc)) rfl
  rw [hsplit]
  simpa using run_append h1 h2

theorem isTimely_replicate (k : Nat) : ∀ c ∈ List.replicate k timelyAck, isTimely 80 c = true := by
  intro c hc
  rw [List.eq_of_mem_replicate hc]
  decide

theorem isLate_replicate (k : Nat) : ∀ c ∈ List.replicate k lateAck, isLate 80 c = true := by
  intro c hc
  rw [List.eq_of_mem_replicate hc]
  decide

theorem halvedState_rto (k : Nat) : timeout_ms (halvedState k) = some 80 :=
  timeout_ms_of_rto fresh_rto

theorem halved_pair (k : Nat) (hk1 : 4 ≤ k) (hk2 : k + 1 ≤ 1074) :
    run (halvedState k) [lateAck, lateAck] = some ([], halvedState (k + 1)) := by
  have hr : 80 < rtt_of 0 100 := by decide
  have hT0 : (0 : ℚ) < 7 * pow2 (-((k : Int) - 1)) := mul_pos (by norm_num) (pow2_pos _)
  have hT1 : 7 * pow2 (-((k : Int) - 1)) ≤ 1 := by
    have h1 : pow2 (-((k : Int) - 1)) ≤ pow2 (-3) := pow2_le_pow2 (by omega)
    have h2 : pow2 (-3) = 1 / 8 := by norm_num [pow2]
    rw [h2] at h1
    linarith
  have hhalf : (7 : ℚ) * pow2 (-(k : Int)) / 2 = ((7 : Nat) : ℚ) * pow2 (-((k + 1 : Nat) : Int)) := by
    have e : (-(k : Int)) = -((k + 1 : Nat) : Int) + 1 := by
      push_cast
      ring
    rw [e, pow2_add, pow2_one]
    push_cast
    ring
  have hdouble : IsDouble ((7 : ℚ) * pow2 (-(k : Int)) / 2) := by
    rw [hhalf]
    apply isDouble_nat_mul_pow2 7 _ (by norm_num) (by push_cast; omega)
    have h1 : pow2 (-((k + 1 : Nat) : Int)) ≤ pow2 0 := pow2_le_pow2 (by omega)
    rw [pow2_zero] at h1
    have h2 : (2 : ℚ) ^ 54 < pow2 1024 := pow2_1024_gt
    have h3 : ((7 : Nat) : ℚ) * pow2 (-((k + 1 : Nat) : Int)) ≤ 7 := by
      have e7 : ((7 : Nat) : ℚ) = 7 := by norm_num
      rw [e7]
      linarith
    have h4 : (7 : ℚ) < 2 ^ 54 := by norm_num
    linarith
  have h1 : update (halvedState k) (rtt_of 0 100) 80
      = { halvedState k with num_timeouts := 1 } := by
    rw [update_late_count _ hr]
    · rfl
    · show Double.ge (Double.ofUInt 0) (.fin (7 * pow2 (-((k : Int) - 1)))) = false
      rw [ge_ofUInt_fin]
      simpa using hT0
  have h2 : update { halvedState k with num_timeouts := 1 } (rtt_of 0 100) 80
      = halvedState (k + 1) := by
    rw [update_late_backoff _ hr]
    · show ({ halvedState k with
          num_timeouts := 0
          timeouts_thresh := .fin (7 * pow2 (-(k : Int)))
          the_window_size := Double.div (.fin (7 * pow2 (-(k : Int)))) (.fin 2) } : State)
        = halvedState (k + 1)
      rw [half_exact _ hdouble, hhalf]
      simp only [halvedState]
      congr 3
      push_cast
      ring_nf
    · show Double.ge (Double.ofUInt 1) (.fin (7 * pow2 (-((k : Int) - 1)))) = true
      rw [ge_ofUInt_fin]
      simpa using hT1
  have ht1 : timeout_ms ({ halvedState k with num_timeouts := 1 } : State) = some 80 :=
    timeout_ms_of_rto fresh_rto
  show run (halvedState k) [.ack_received 0 0 0 100, .ack_received 0 0 0 100] = _
  rw [run_ack (halvedState_rto k), h1, run_ack ht1, h2]
  rfl

theorem halved_chain (j k : Nat) (hk : 4 ≤ k) (hkj : k + j ≤ 1074) :
    run (halvedState k) (List.replicate (2 * j) lateAck) = some ([], halvedState (k + j)) := by
  induction j with
  | zero => rfl
  | succ j ih =>
    have e : 2 * (j + 1) = 2 * j + 2 := by ring
    rw [e, List.replicate_add]
    have h1 := ih (by omega)
    have h2 := halved_pair (k + j) (by omega) (by omega)
    have h3 : List.replicate 2 lateAck = [lateAck, lateAck] := rfl
    rw [h3]
    simpa [Nat.add_assoc] using run_append h1 h2

theorem fresh_halved_four : run fresh (List.replicate 32 lateAck) = some ([], halvedState 4) := by
  decide!

theorem fresh_halved (j : Nat) (hj : j ≤ 1070) :
    run fresh (List.replicate (32 + 2 * j) lateAck) = some ([], halvedState (4 + j)) := by
  rw [List.replicate_add]
  simpa using run_append fresh_halved_four (halved_chain j 4 le_rfl (by omega))

/-! ## Claims about `window_size` -/

/-- C1, counterexample: with the stored window at `2 ^ 32` the claimed result
`max 1 ⌊window⌋` is `2 ^ 32`, which no `unsigned int` holds, and `window_size`
has no defined result. -/
theorem window_size_unrepresentable :
    max 1 ⌊(4294967296 : ℚ)⌋ = 4294967296 ∧
      window_size { fresh with the_window_size := .fin 4294967296 } = none := by
  refine ⟨?_, window_size_of_large _ 4294967296 rfl (by norm_num)⟩
  have : ⌊(4294967296 : ℚ)⌋ = 4294967296 := by
    rw [Int.floor_eq_iff]
    norm_num
  simp [this]

/-- C1, as amended: for every state whose stored window is a finite value `q`
below `2 ^ 32`, `window_size` returns `max 1 ⌊q⌋`, the window being the stored
value at the time of the call; for a stored window of `2 ^ 32` or more it has no
defined result. A stored `-0.0` or `-inf` is below 1 and gives 1; a stored
`+inf` or NaN has no defined result. -/
theorem window_size_returns_floor (s : State) :
    (∀ q, s.the_window_size = .fin q → q < 2 ^ 32 →
        ∃ v s1, window_size s = some (v, s1) ∧ (v : Int) = max 1 ⌊q⌋) ∧
      (∀ q, s.the_window_size = .fin q → 2 ^ 32 ≤ q → window_size s = none) ∧
      (s.the_window_size = .negZero ∨ s.the_window_size = .inf true →
        window_size s = some (1, { s with the_window_size := .fin 1 })) ∧
      (s.the_window_size = .inf false ∨ s.the_window_size = .nan → window_size s = none) := by
  refine ⟨fun q hq h => ⟨_, _, window_size_of_lt s q hq h, ?_⟩,
    fun q hq h => window_size_of_large s q hq h, window_size_of_low s,
    window_size_of_undefined s⟩
  have : (1 : Int) ≤ max 1 ⌊q⌋ := le_max_left _ _
  omega

/-- C1, witness: a stored window of 7/2, for which 3 is returned. -/
theorem window_size_returns_floor_witness :
    (7 / 2 : ℚ) < 2 ^ 32 ∧
      window_size { fresh with the_window_size := .fin (7 / 2) }
        = some (3, { fresh with the_window_size := .fin (7 / 2) }) ∧
      ∃ v s1, window_size { fresh with the_window_size := .fin (7 / 2) } = some (v, s1) ∧
        (v : Int) = max 1 ⌊(7 / 2 : ℚ)⌋ :=
  ⟨by norm_num, by decide!,
    (window_size_returns_floor { fresh with the_window_size := .fin (7 / 2) }).1 (7 / 2) rfl
      (by norm_num)⟩

/-- C2, counterexample: 29 late acks drive the stored window of a fresh
controller to 7/8. A timely ack then produces the window
`2915276544503223 / 2 ^ 50`; with a `window_size` call inserted before it, the
call returns 1 and overwrites the stored window with 1, and the same ack
produces 5/2 instead. -/
theorem window_size_writes_window :
    run fresh (List.replicate 29 lateAck) = some ([], lowState) ∧
      window_size lowState = some (1, { lowState with the_window_size := .fin 1 }) ∧
      ({ lowState with the_window_size := .fin 1 } : State).the_window_size
        ≠ lowState.the_window_size ∧
      run fresh (List.replicate 28 lateAck ++ [lateAck, timelyAck])
        = some ([], { lowState with
            the_window_size := .fin (2915276544503223 / 1125899906842624) }) ∧
      run fresh (List.replicate 28 lateAck ++ [lateAck, .window_size, timelyAck])
        = some ([1], { lowState with the_window_size := .fin (5 / 2) }) ∧
      ({ lowState with the_window_size := .fin (5 / 2) } : State)
        ≠ { lowState with the_window_size := .fin (2915276544503223 / 1125899906842624) } := by
  refine ⟨by decide!, by decide!, by decide!, by decide!, by decide!, by decide!⟩

theorem clampWindow_of_le {w : Double} (h : Double.le (.fin 1) w = true) :
    clampWindow w = w := by
  rw [clampWindow_eq]
  cases w with
  | fin q =>
    rw [le_fin_fin] at h
    rw [lt_fin_fin]
    have h1 : (1 : ℚ) ≤ q := by simpa using h
    simp [not_lt.mpr h1]
  | negZero => norm_num [Double.le, Double.value] at h
  | inf n =>
    cases n
    · simp [Double.lt]
    · simp [Double.le] at h
  | nan => simp [Double.le] at h

/-- C2, as amended: a `window_size` call leaves every global other than the
stored window unchanged and stores the clamped window, `max 1 q` for a finite
window `q`; when the stored window is at least 1 the call changes nothing at
all, so the state produced by a following `ack_received` is the one produced
without the call. -/
theorem window_size_frame (s s1 : State) (v : Nat) (h : window_size s = some (v, s1)) :
    s1 = { s with the_window_size := clampWindow s.the_window_size } ∧
      (∀ q, s.the_window_size = .fin q → s1 = { s with the_window_size := .fin (max 1 q) }) ∧
      (Double.le (.fin 1) s.the_window_size = true →
        s1 = s ∧ ∀ n a b c, ack_received s1 n a b c = ack_received s n a b c) := by
  have hs := (window_size_state h).1
  refine ⟨hs, fun q hq => ?_, fun h1 => ?_⟩
  · rw [hs, hq, clampWindow_fin]
  · have : s1 = s := by
      rw [hs, clampWindow_of_le h1]
    exact ⟨this, fun n a b c => by rw [this]⟩

/-- C2, witness: the fresh controller, whose window is 14. -/
theorem window_size_frame_witness :
    window_size fresh = some (14, fresh) ∧
      Double.le (.fin 1) fresh.the_window_size = true ∧
      (fresh = fresh ∧ ∀ n a b c, ack_received fresh n a b c = ack_received fresh n a b c) :=
  have h : window_size fresh = some (14, fresh) := by decide!
  ⟨h, by decide!, (window_size_frame fresh fresh 14 h).2.2 (by decide!)⟩

/-! ## Growth and halving of the window -/

theorem isDouble_pow2 (e : Int) (h1 : -1074 ≤ e) (h2 : e < 1024) : IsDouble (pow2 e) := by
  have := isDouble_nat_mul_pow2 1 e (by norm_num) h1 (by
    rw [Nat.cast_one, one_mul]
    exact pow2_lt_pow2 h2)
  simpa using this

theorem ulpExp_le_of_le {w : ℚ} (hw : 0 < w) (h : w ≤ 2 ^ 26) : ulpExp w ≤ -26 := by
  have h1 : w < pow2 27 := by
    have : pow2 27 = (2 : ℚ) ^ 27 := pow2_natCast 27
    rw [this]
    have : (2 : ℚ) ^ 26 < 2 ^ 27 := by norm_num
    linarith
  have h2 := ilog2_lt_of_lt_pow2 hw h1
  unfold ulpExp
  exact max_le (by omega) (by norm_num)

/-- The congestion-avoidance step `w + 1.5 / w` on a positive value of type
`double`: the result is `+inf` or a finite value that is at least `w`, and
above `w` when `w` is at most `2 ^ 26`. -/
theorem grow_ge {w : ℚ} (hw : 0 < w) (hwd : IsDouble w) :
    (Double.add (.fin w) (Double.div (.fin (3 / 2)) (.fin w)) = .inf false ∨
        ∃ r, Double.add (.fin w) (Double.div (.fin (3 / 2)) (.fin w)) = .fin r ∧ w ≤ r) ∧
      (w ≤ 2 ^ 26 →
        (Double.add (.fin w) (Double.div (.fin (3 / 2)) (.fin w)) = .inf false ∨
          ∃ r, Double.add (.fin w) (Double.div (.fin (3 / 2)) (.fin w)) = .fin r ∧ w < r)) := by
  have hquot : (0 : ℚ) < 3 / 2 / w := div_pos (by norm_num) hw
  rw [div_fin_fin _ w hw.ne']
  constructor
  · rcases round_nonneg_any hquot
        (xor (decide ((3 / 2 : ℚ) < 0)) (decide (w < 0))) with hd | ⟨d, hd, hd0⟩
    · rw [hd]
      exact Or.inl rfl
    · rw [hd, add_fin_fin]
      exact round_ge_double hw hwd (by linarith) _
  · intro hle
    have hc : pow2 (-26) ≤ 3 / 2 / w := by
      have e : pow2 (-26) = 1 / 2 ^ 26 := by norm_num [pow2]
      rw [e, div_le_div_iff₀ (by norm_num) hw]
      nlinarith
    rcases round_ge_double (pow2_pos _) (isDouble_pow2 (-26) (by norm_num) (by norm_num)) hc
        (xor (decide ((3 / 2 : ℚ) < 0)) (decide (w < 0))) with hd | ⟨d, hd, hd0⟩
    · rw [hd]
      exact Or.inl rfl
    · rw [hd, add_fin_fin]
      have hu : pow2 (ulpExp w) ≤ d :=
        le_trans (pow2_le_pow2 (ulpExp_le_of_le hw hle)) hd0
      exact round_gt_double hw hwd (by linarith) _

theorem grow_exact {w : ℚ} (hw : w ≠ 0) (h1 : IsDouble (3 / 2 / w))
    (h2 : IsDouble (w + 3 / 2 / w)) :
    Double.add (.fin w) (Double.div (.fin (3 / 2)) (.fin w)) = .fin (w + 3 / 2 / w) := by
  have hq : (3 / 2 : ℚ) / w ≠ 0 := div_ne_zero (by norm_num) hw
  have hsum : w + 3 / 2 / w ≠ 0 := by
    intro h0
    have h3 : w * (w + 3 / 2 / w) = 0 := by rw [h0, mul_zero]
    have h4 : w * (w + 3 / 2 / w) = w * w + 3 / 2 := by
      field_simp
      ring
    rw [h4] at h3
    nlinarith [mul_self_nonneg w]
  rw [div_fin_fin _ w hw, round_of_isDouble h1 hq, add_fin_fin, round_of_isDouble h2 hsum]

theorem isDouble_half {q : ℚ} (hq : IsDouble q) (h : pow2 (-1021) ≤ q) : IsDouble (q / 2) := by
  have hpos : 0 < q := lt_of_lt_of_le (pow2_pos _) h
  obtain ⟨hr, hlt⟩ := (isDouble_pos_iff hpos).mp hq
  obtain ⟨M, hM, hdec⟩ := roundMag_decomp hpos
  rw [hr] at hdec
  have hE : -1073 ≤ ulpExp q := by
    have h1 := le_ilog2_of_pow2_le h
    have h2 := ulpExp_ge_log q
    omega
  generalize ulpExp q = E at hdec hE
  have e : q / 2 = (M : ℚ) * pow2 (E - 1) := by
    rw [hdec, pow2_sub, pow2_one]
    ring
  rw [e]
  apply isDouble_nat_mul_pow2 M (E - 1) hM (by omega)
  rw [← e]
  linarith

/-! ## Claims about one `ack_received` call -/

/-- C3, counterexample: after 9007199254740985 timely acks the stored window
of a fresh controller is `2 ^ 54`; still in slow start, one more timely ack
leaves it at `2 ^ 54`, which is not `2 ^ 54 + 2`. -/
theorem ack_received_slow_start_sticks :
    run fresh (List.replicate 9007199254740985 timelyAck)
        = some ([], { fresh with the_window_size := .fin (2 ^ 54) }) ∧
      ({ fresh with the_window_size := .fin (2 ^ 54) } : State).slow_start = true ∧
      timeout_ms { fresh with the_window_size := .fin (2 ^ 54) } = some 80 ∧
      rtt_of 0 10 ≤ 80 ∧
      ack_received { fresh with the_window_size := .fin (2 ^ 54) } 0 0 0 10
        = some { fresh with the_window_size := .fin (2 ^ 54) } ∧
      ((2 : ℚ) ^ 54 ≠ 2 ^ 54 + 2) := by
  have ht : timeout_ms { fresh with the_window_size := .fin (2 ^ 54) } = some 80 :=
    timeout_ms_of_rto fresh_rto
  refine ⟨?_, rfl, ht, by decide, ?_, by norm_num⟩
  · have h := fresh_after_timely (List.replicate 9007199254740985 timelyAck)
      (isTimely_replicate _) (by rw [List.length_replicate]; norm_num)
    rw [List.length_replicate] at h
    rw [h]
    norm_num
  · rw [ack_received_of_timeout ht, update_timely_slow_start _ (by decide) rfl]
    show some ({ fresh with
      the_window_size := Double.add (.fin (2 ^ 54)) (.fin 2) } : State) = _
    rw [add_sticks]

/-- C3, as amended: in slow start, an ack whose round-trip time is at most the
value of `timeout_ms()`, the boundary included, sets the stored window to the
`double` sum `window + 2` and changes nothing else; the sum is exactly
`window + 2` whenever that value is a `double`, in particular for every integer
window with `window + 2 ≤ 2 ^ 53`. -/
theorem ack_received_slow_start (s : State) (n a b c t : Nat)
    (hss : s.slow_start = true) (ht : timeout_ms s = some t) (hrtt : rtt_of a c ≤ t) :
    ack_received s n a b c
        = some { s with the_window_size := Double.add s.the_window_size (.fin 2) } ∧
      (∀ q, s.the_window_size = .fin q → IsDouble (q + 2) →
        ack_received s n a b c = some { s with the_window_size := .fin (q + 2) }) ∧
      (∀ k : Nat, s.the_window_size = .fin (k : ℚ) → k + 2 ≤ 2 ^ 53 →
        ack_received s n a b c = some { s with the_window_size := .fin ((k : ℚ) + 2) }) := by
  have h := ack_received_of_timeout ht n a b c
  rw [update_timely_slow_start s hrtt hss] at h
  have hq : ∀ q, s.the_window_size = .fin q → IsDouble (q + 2) →
      ack_received s n a b c = some { s with the_window_size := .fin (q + 2) } := by
    intro q hq hd
    rw [h, hq, add_two_exact q hd]
  refine ⟨h, hq, fun k hk hle => hq k hk ?_⟩
  have := isDouble_natCast (k + 2) hle
  push_cast at this
  exact this

/-- C3, witness: the fresh controller and an ack with `rtt = 80 = timeout_ms()`,
the boundary case; the window goes from 14 to 16. -/
theorem ack_received_slow_start_witness :
    fresh.slow_start = true ∧ timeout_ms fresh = some 80 ∧ rtt_of 20 100 ≤ 80 ∧
      rtt_of 20 100 = 80 ∧ fresh.the_window_size = .fin ((14 : Nat) : ℚ) ∧
      ack_received fresh 0 20 0 100
        = some { fresh with the_window_size := .fin (((14 : Nat) : ℚ) + 2) } :=
  ⟨rfl, timeout_ms_fresh, by decide, by decide, by decide!,
    (ack_received_slow_start fresh 0 20 0 100 80 rfl timeout_ms_fresh (by decide)).2.2
      14 (by decide!) (by norm_num)⟩

theorem le_of_grow {w : ℚ} {r : Double}
    (h : r = .inf false ∨ ∃ q, r = .fin q ∧ w ≤ q) : Double.le (.fin w) r = true := by
  rcases h with h | ⟨q, h, hq⟩
  · rw [h]
    rfl
  · rw [h]
    simpa [Double.le, Double.value] using hq

theorem lt_of_grow {w : ℚ} {r : Double}
    (h : r = .inf false ∨ ∃ q, r = .fin q ∧ w < q) : Double.lt (.fin w) r = true := by
  rcases h with h | ⟨q, h, hq⟩
  · rw [h]
    rfl
  · rw [h]
    simpa [Double.lt, Double.value] using hq

theorem plateauState_rto : timeout_ms plateauState = some 80 := timeout_ms_of_rto fresh_rto

theorem fresh_plateau :
    run fresh (List.replicate 134217721 timelyAck ++ [lateAck]) = some ([], plateauState) := by
  have h := fresh_after_timely (List.replicate 134217721 timelyAck)
    (isTimely_replicate _) (by rw [List.length_replicate]; norm_num)
  rw [List.length_replicate] at h
  have e : (14 : ℚ) + 2 * ((134217721 : Nat) : ℚ) = 2 ^ 28 := by norm_num
  rw [e] at h
  have ht : timeout_ms { fresh with the_window_size := .fin (2 ^ 28) } = some 80 :=
    timeout_ms_of_rto fresh_rto
  have h2 : run { fresh with the_window_size := .fin (2 ^ 28) } [lateAck]
      = some ([], plateauState) := by
    rw [lateAck, run_ack ht]
    simp only [run]
    rw [update_late_backoff _ (by decide) (by decide!)]
    have e2 : Double.div (.fin (2 ^ 28)) (.fin 2) = .fin (2 ^ 27) := by decide!
    show some (([] : List Nat), ({ fresh with
      slow_start := false
      num_timeouts := 0
      timeouts_thresh := .fin (2 ^ 28)
      the_window_size := Double.div (.fin (2 ^ 28)) (.fin 2) } : State)) = _
    rw [e2]
    rfl
  exact run_append h h2

/-- C4, counterexample: 134217721 timely acks and one late ack leave a fresh
controller in congestion avoidance with the positive window `2 ^ 27`; a timely
ack then stores `2 ^ 27` again, because `2 ^ 27 + 1.5 / 2 ^ 27` rounds to
`2 ^ 27`: the window is neither `window + 1.5 / window` nor strictly greater
than before. -/
theorem ack_received_avoidance_sticks :
    run fresh (List.replicate 134217721 timelyAck ++ [lateAck]) = some ([], plateauState) ∧
      plateauState.slow_start = false ∧
      plateauState.the_window_size = .fin (2 ^ 27) ∧ (0 : ℚ) < 2 ^ 27 ∧
      timeout_ms plateauState = some 80 ∧ rtt_of 0 10 ≤ 80 ∧
      ack_received plateauState 0 0 0 10 = some plateauState ∧
      Double.lt plateauState.the_window_size plateauState.the_window_size = false ∧
      ((2 : ℚ) ^ 27 ≠ 2 ^ 27 + 3 / 2 / 2 ^ 27) := by
  refine ⟨fresh_plateau, rfl, rfl, by norm_num, plateauState_rto, by decide, ?_, by decide!,
    by norm_num⟩
  rw [ack_received_of_timeout plateauState_rto, update_timely_avoidance _ (by decide) rfl]
  have e : Double.add (.fin (2 ^ 27)) (Double.div (.fin (3 / 2)) (.fin (2 ^ 27)))
      = .fin (2 ^ 27) := by decide!
  show some ({ plateauState with
    the_window_size :=
      Double.add (.fin (2 ^ 27)) (Double.div (.fin (3 / 2)) (.fin (2 ^ 27))) } : State) = _
  rw [e]
  rfl

/-- C4, as amended: in congestion avoidance, an ack whose round-trip time is at
most the value of `timeout_ms()` sets the stored window to the `double` result
of `window + 1.5 / window` (quotient and sum each rounded) and changes nothing
else. For a finite positive window the result is never below the window before,
it is strictly greater whenever the window is at most `2 ^ 26`, and it is
exactly `window + 1.5 / window` whenever the quotient and the sum are values of
type `double`. -/
theorem ack_received_congestion_avoidance (s : State) (n a b c t : Nat) (w : ℚ)
    (hss : s.slow_start = false) (hw : s.the_window_size = .fin w) (hpos : 0 < w)
    (hd : IsDouble w) (ht : timeout_ms s = some t) (hrtt : rtt_of a c ≤ t) :
    ack_received s n a b c
        = some { s with
            the_window_size := Double.add (.fin w) (Double.div (.fin (3 / 2)) (.fin w)) } ∧
      Double.le (.fin w) (Double.add (.fin w) (Double.div (.fin (3 / 2)) (.fin w))) = true ∧
      (w ≤ 2 ^ 26 →
        Double.lt (.fin w) (Double.add (.fin w) (Double.div (.fin (3 / 2)) (.fin w))) = true) ∧
      (IsDouble (3 / 2 / w) → IsDouble (w + 3 / 2 / w) →
        ack_received s n a b c = some { s with the_window_size := .fin (w + 3 / 2 / w) }) := by
  have h := ack_received_of_timeout ht n a b c
  rw [update_timely_avoidance s hrtt hss, hw] at h
  refine ⟨h, le_of_grow (grow_ge hpos hd).1, fun hle => lt_of_grow ((grow_ge hpos hd).2 hle),
    fun h1 h2 => ?_⟩
  rw [h, grow_exact hpos.ne' h1 h2]

/-- C4, witness: window 12 in congestion avoidance and an ack with `rtt = 10`;
the new window is exactly `12 + 1.5 / 12 = 97 / 8`. -/
theorem ack_received_congestion_avoidance_witness :
    ({ fresh with the_window_size := .fin 12, slow_start := false } : State).slow_start = false ∧
      (0 : ℚ) < 12 ∧ IsDouble 12 ∧ rtt_of 0 10 ≤ 80 ∧ (12 : ℚ) ≤ 2 ^ 26 ∧
      IsDouble (3 / 2 / 12) ∧ IsDouble (12 + 3 / 2 / 12) ∧
      Double.lt (.fin 12) (Double.add (.fin 12) (Double.div (.fin (3 / 2)) (.fin 12))) = true ∧
      ack_received { fresh with the_window_size := .fin 12, slow_start := false } 0 0 0 10
        = some { fresh with the_window_size := .fin (12 + 3 / 2 / 12), slow_start := false } :=
  have h := ack_received_congestion_avoidance
    { fresh with the_window_size := .fin 12, slow_start := false } 0 0 0 10 80 12 rfl rfl
    (by norm_num) (by unfold IsDouble; decide!) (timeout_ms_of_rto fresh_rto) (by decide)
  ⟨rfl, by norm_num, by unfold IsDouble; decide!, by decide, by norm_num,
    by unfold IsDouble; decide!, by unfold IsDouble; decide!,
    h.2.2.1 (by norm_num),
    h.2.2.2 (by unfold IsDouble; decide!) (by unfold IsDouble; decide!)⟩

theorem tinyState_rto : timeout_ms tinyState = some 80 := timeout_ms_of_rto fresh_rto

theorem fresh_tiny : run fresh (List.replicate 2173 lateAck) = some ([], tinyState) := by
  have h1 := fresh_halved 1070 le_rfl
  have h2 : run (halvedState 1074) [lateAck] = some ([], tinyState) := by
    rw [lateAck, run_ack (halvedState_rto 1074)]
    simp only [run]
    rw [update_late_count _ (by decide) (by decide!)]
    rfl
  have h3 := run_append h1 h2
  have e : List.replicate (32 + 2 * 1070) lateAck ++ [lateAck] = List.replicate 2173 lateAck :=
    (List.replicate_succ' (32 + 2 * 1070) lateAck).symm
  rw [e] at h3
  exact h3

/-- C5, counterexample: 2173 late acks leave a fresh controller with the window
`7 * 2 ^ (-1074)` and the counter 1 above the threshold; the next late ack
stores `4 * 2 ^ (-1074)`, because half of the window is not a `double` and is
rounded: the new window is not the window before divided by 2. -/
theorem ack_received_backoff_rounds :
    run fresh (List.replicate 2173 lateAck) = some ([], tinyState) ∧
      Double.ge (Double.ofUInt tinyState.num_timeouts) tinyState.timeouts_thresh = true ∧
      timeout_ms tinyState = some 80 ∧ 80 < rtt_of 0 100 ∧
      tinyState.the_window_size = .fin (7 * pow2 (-1074)) ∧
      ack_received tinyState 0 0 0 100 = some { tinyState with
        num_timeouts := 0
        timeouts_thresh := .fin (7 * pow2 (-1074))
        the_window_size := .fin (4 * pow2 (-1074)) } ∧
      (4 * pow2 (-1074) ≠ 7 * pow2 (-1074) / 2) := by
  refine ⟨fresh_tiny, by decide!, tinyState_rto, by decide, ?_, by decide!, ?_⟩
  · simp [tinyState, halvedState]
  · have := pow2_pos (-1074)
    intro h
    linarith

/-- C5, as amended: when `num_timeouts >= timeouts_thresh`, an ack whose
round-trip time exceeds the value of `timeout_ms()` resets `num_timeouts` to 0,
stores the window before the call in `timeouts_thresh`, stores the `double`
quotient `window / 2` as the window and clears `slow_start`; nothing else
changes. The quotient is exactly half of the window whenever that half is a
`double`, in particular for every window that is a `double` of at least
`2 ^ (-1021)`. -/
theorem ack_received_backoff (s : State) (n a b c t : Nat)
    (hn : Double.ge (Double.ofUInt s.num_timeouts) s.timeouts_thresh = true)
    (ht : timeout_ms s = some t) (hrtt : t < rtt_of a c) :
    ack_received s n a b c = some { s with
        slow_start := false
        num_timeouts := 0
        timeouts_thresh := s.the_window_size
        the_window_size := Double.div s.the_window_size (.fin 2) } ∧
      (∀ q, s.the_window_size = .fin q → IsDouble (q / 2) →
        ack_received s n a b c = some { s with
          slow_start := false
          num_timeouts := 0
          timeouts_thresh := .fin q
          the_window_size := .fin (q / 2) }) ∧
      (∀ q, s.the_window_size = .fin q → IsDouble q → pow2 (-1021) ≤ q →
        ack_received s n a b c = some { s with
          slow_start := false
          num_timeouts := 0
          timeouts_thresh := .fin q
          the_window_size := .fin (q / 2) }) := by
  have h := ack_received_of_timeout ht n a b c
  rw [update_late_backoff s hrtt hn] at h
  have hq : ∀ q, s.the_window_size = .fin q → IsDouble (q / 2) →
      ack_received s n a b c = some { s with
        slow_start := false
        num_timeouts := 0
        timeouts_thresh := .fin q
        the_window_size := .fin (q / 2) } := by
    intro q hq hd
    rw [h, hq, half_exact q hd]
  exact ⟨h, hq, fun q hw hd hle => hq q hw (isDouble_half hd hle)⟩

/-- C5, witness: the fresh controller (threshold 0, counter 0, window 14) and
an ack with `rtt = 81`; the window becomes 7 and the threshold 14. -/
theorem ack_received_backoff_witness :
    Double.ge (Double.ofUInt fresh.num_timeouts) fresh.timeouts_thresh = true ∧
      80 < rtt_of 0 81 ∧ fresh.the_window_size = .fin 14 ∧ IsDouble (14 / 2) ∧
      ack_received fresh 0 0 0 81 = some { fresh with
        slow_start := false
        num_timeouts := 0
        timeouts_thresh := .fin 14
        the_window_size := .fin (14 / 2) } :=
  ⟨by decide!, by decide, fresh_window, by unfold IsDouble; decide!,
    (ack_received_backoff fresh 0 0 0 81 80 (by decide!) timeout_ms_fresh (by decide)).2.1
      14 fresh_window (by unfold IsDouble; decide!)⟩

theorem fullCounterState_rto : timeout_ms fullCounterState = some 80 :=
  timeout_ms_of_rto fresh_rto

/-- C6, counterexample: with `num_timeouts = 2 ^ 32 - 1` below the threshold
`2 ^ 32`, a late ack wraps the 32-bit counter to 0, which is not the counter
before plus 1. -/
theorem ack_received_counter_wraps :
    Double.lt (Double.ofUInt fullCounterState.num_timeouts) fullCounterState.timeouts_thresh
        = true ∧
      timeout_ms fullCounterState = some 80 ∧ 80 < rtt_of 0 100 ∧
      ack_received fullCounterState 0 0 0 100
        = some { fullCounterState with num_timeouts := 0 } ∧
      (0 : Nat) ≠ fullCounterState.num_timeouts + 1 := by
  have hr : 80 < rtt_of 0 100 := by decide
  refine ⟨by decide!, fullCounterState_rto, hr, ?_, by simp [fullCounterState]⟩
  rw [ack_received_of_timeout fullCounterState_rto,
    update_late_count _ hr (ge_false_of_lt (by decide!))]
  simp [fullCounterState, UINT_SIZE]

/-- C6, as amended: when `num_timeouts < timeouts_thresh`, an ack whose
round-trip time exceeds the value of `timeout_ms()` leaves the stored window
and `timeouts_thresh` unchanged, clears `slow_start` and sets `num_timeouts` to
the counter before plus 1 modulo `2 ^ 32`, which is the counter before plus 1
whenever that is below `2 ^ 32`. -/
theorem ack_received_stray_delay (s : State) (n a b c t : Nat)
    (hn : Double.lt (Double.ofUInt s.num_timeouts) s.timeouts_thresh = true)
    (ht : timeout_ms s = some t) (hrtt : t < rtt_of a c) :
    ack_received s n a b c = some { s with
        slow_start := false
        num_timeouts := (s.num_timeouts + 1) % UINT_SIZE } ∧
      (s.num_timeouts + 1 < UINT_SIZE →
        ack_received s n a b c = some { s with
          slow_start := false
          num_timeouts := s.num_timeouts + 1 }) := by
  have h := ack_received_of_timeout ht n a b c
  rw [update_late_count s hrtt (ge_false_of_lt hn)] at h
  refine ⟨h, fun hlt => ?_⟩
  rw [h, Nat.mod_eq_of_lt hlt]

/-- C6, witness: window 12, threshold 24, counter 0 and a late ack give window
12, threshold 24, counter 1. -/
theorem ack_received_stray_delay_witness :
    ack_received
        { fresh with
          timeouts_thresh := .fin 24, the_window_size := .fin 12, slow_start := false }
        0 0 0 100
      = some { fresh with
          timeouts_thresh := .fin 24, the_window_size := .fin 12, slow_start := false,
          num_timeouts := 1 } :=
  (ack_received_stray_delay
    { fresh with timeouts_thresh := .fin 24, the_window_size := .fin 12, slow_start := false }
    0 0 0 100 80 (by decide!) (timeout_ms_of_rto fresh_rto) (by decide)).2
    (by decide)

/-! ## Runs that stop, and runs without timely acks -/

theorem run_none_split {cs : List Call} {s : State} (h : run s cs = none) :
    ∃ pre c post outs s1, cs = pre ++ c :: post ∧ run s pre = some (outs, s1) ∧
      step s1 c = none := by
  induction cs generalizing s with
  | nil => simp [run] at h
  | cons c cs ih =>
    cases hstep : step s c with
    | none => exact ⟨[], c, cs, [], s, rfl, rfl, hstep⟩
    | some p =>
      obtain ⟨r, s1⟩ := p
      cases hrun : run s1 cs with
      | none =>
        obtain ⟨pre, d, post, outs, s2, hcs, hpre, hd⟩ := ih hrun
        refine ⟨c :: pre, d, post, r.toList ++ outs, s2, by rw [hcs]; rfl, ?_, hd⟩
        simp only [run, hstep, hpre]
      | some q =>
        obtain ⟨outs, s2⟩ := q
        simp [run, hstep, hrun] at h

theorem step_none_cases {s : State} {c : Call} (h : step s c = none) :
    (c = .window_size ∧ toUnsigned (clampWindow s.the_window_size) = none) ∨
      (∃ n a b d, c = .ack_received n a b d ∧ timeout_ms s = none) := by
  cases c with
  | window_size =>
    left
    rw [step, window_size_eq] at h
    simpa using h
  | datagram_was_sent n t => simp [step] at h
  | ack_received n a b d =>
    right
    refine ⟨n, a, b, d, rfl, ?_⟩
    simpa [step, ack_received] using h

theorem clamp_undefined {w : Double} (hw : w.NonNeg)
    (h : toUnsigned (clampWindow w) = none) :
    w = .inf false ∨ ∃ q, w = .fin q ∧ 2 ^ 32 ≤ q := by
  rcases hw with hw | ⟨q, hw, hq⟩
  · exact Or.inl hw
  · right
    refine ⟨q, hw, ?_⟩
    by_contra hlt
    rw [not_le] at hlt
    rw [hw, clampWindow_fin] at h
    have h1 : max 1 q < 2 ^ 32 := max_lt (by norm_num) hlt
    rw [toUnsigned_of_nonneg (le_trans zero_le_one (le_max_left 1 q)) h1] at h
    simp at h

theorem isDouble_fourteen : IsDouble 14 := by
  unfold IsDouble
  decide!

theorem half_le_fourteen {q : ℚ} (h0 : 0 ≤ q) (h1 : q ≤ 14) :
    ∃ r, Double.div (.fin q) (.fin 2) = .fin r ∧ 0 ≤ r ∧ r ≤ 14 := by
  rw [div_fin_fin q 2 (by norm_num)]
  rcases eq_or_lt_of_le h0 with h | h
  · rw [← h]
    exact ⟨0, by decide!, le_rfl, by norm_num⟩
  · exact round_le_double (by linarith) isDouble_fourteen (by linarith) _

/-- A run from a state with `rto = 80` and a finite window between 0 and 14 in
which no ack is timely returns a value at every read, each between 1 and 14. -/
theorem run_without_timely (cs : List Call) :
    ∀ s : State, s.rto = .fin 80 →
      (∃ q, s.the_window_size = .fin q ∧ 0 ≤ q ∧ q ≤ 14) →
      (∀ c ∈ cs, isTimely 80 c = false) →
      ∃ outs s1, run s cs = some (outs, s1) ∧ ∀ v ∈ outs, 1 ≤ v ∧ v ≤ 14 := by
  induction cs with
  | nil =>
    intro s _ _ _
    exact ⟨[], s, rfl, by simp⟩
  | cons c cs ih =>
    intro s hrto hw hall
    obtain ⟨q, hq, h0, h14⟩ := hw
    have hrest : ∀ x ∈ cs, isTimely 80 x = false :=
      fun x hx => hall x (List.mem_cons_of_mem _ hx)
    have hc := hall c (List.mem_cons_self _ _)
    cases c with
    | window_size =>
      have hws := window_size_of_lt s q hq (lt_of_le_of_lt h14 (by norm_num))
      obtain ⟨outs, s1, hrun, hout⟩ :=
        ih { s with the_window_size := .fin (max 1 q) } hrto
          ⟨max 1 q, rfl, le_trans zero_le_one (le_max_left 1 q), max_le (by norm_num) h14⟩ hrest
      refine ⟨(max 1 ⌊q⌋).toNat :: outs, s1, ?_, ?_⟩
      · simp [run, step, hws, hrun]
      · intro v hv
        rcases List.mem_cons.mp hv with hv | hv
        · have hfl : ⌊q⌋ ≤ 14 := by
            have : ⌊q⌋ ≤ ⌊(14 : ℚ)⌋ := Int.floor_le_floor h14
            simpa using this
          have h1 : (1 : Int) ≤ max 1 ⌊q⌋ := le_max_left _ _
          have h2 : max 1 ⌊q⌋ ≤ 14 := max_le (by norm_num) hfl
          rw [hv]
          omega
        · exact hout v hv
    | datagram_was_sent n t =>
      obtain ⟨outs, s1, hrun, hout⟩ := ih s hrto ⟨q, hq, h0, h14⟩ hrest
      exact ⟨outs, s1, by simp [run, step, datagram_was_sent, hrun], hout⟩
    | ack_received n a b d =>
      have hr : 80 < rtt_of a d := by
        simpa [isTimely] using hc
      have ht := timeout_ms_of_rto hrto
      have hw1 : ∃ r, (update s (rtt_of a d) 80).the_window_size = .fin r ∧ 0 ≤ r ∧ r ≤ 14 := by
        rcases Bool.eq_false_or_eq_true
            (Double.ge (Double.ofUInt s.num_timeouts) s.timeouts_thresh) with hn | hn
        · rw [update_late_backoff s hr hn]
          show ∃ r, Double.div s.the_window_size (.fin 2) = .fin r ∧ 0 ≤ r ∧ r ≤ 14
          rw [hq]
          exact half_le_fourteen h0 h14
        · rw [update_late_count s hr hn]
          exact ⟨q, hq, h0, h14⟩
      obtain ⟨outs, s1, hrun, hout⟩ :=
        ih (update s (rtt_of a d) 80) (by rw [(update_frame s _ _).1]; exact hrto) hw1 hrest
      refine ⟨outs, s1, ?_, hout⟩
      rw [run_ack ht]
      exact hrun

/-! ## Claims about runs and about the timestamps -/

/-- C7: along every run from a fresh controller the phase flag changes at most
once. Once `slow_start` is false it is false after every further sequence of
calls, and a call that changes it from true to false is an `ack_received` call
whose round-trip time exceeds the value of `timeout_ms()`. -/
theorem slow_start_left_once (pre : List Call) (outs : List Nat) (s : State)
    (h : run fresh pre = some (outs, s)) :
    (phases fresh pre).length = pre.length ∧
      changes (fresh.slow_start :: phases fresh pre) ≤ 1 ∧
      (s.slow_start = false →
        ∀ post outs1 s1, run s post = some (outs1, s1) → s1.slow_start = false) ∧
      (∀ c r s1, step s c = some (r, s1) → s.slow_start = true → s1.slow_start = false →
        ∃ n a b d t, c = .ack_received n a b d ∧ timeout_ms s = some t ∧ t < rtt_of a d) := by
  refine ⟨run_length h, changes_le_one fresh pre, ?_, ?_⟩
  · intro hf post outs1 s1 hrun
    exact run_invariant (fun s => s.slow_start = false)
      (fun _ _ _ _ hP hs => step_slow_start_false hs hP) post s outs1 s1 hf hrun
  · intro c r s1 hstep ht hf
    rcases step_cases hstep with ⟨-, hs, -⟩ | ⟨n, t, -, hs, -⟩ | ⟨n, a, b, d, t, hc, htm, hs, -⟩
    · rw [hs] at hf
      simp [ht] at hf
    · rw [hs, ht] at hf
      simp at hf
    · rw [hs] at hf
      exact ⟨n, a, b, d, t, hc, htm, update_slow_start_change s _ _ ht hf⟩

/-- C7, witness: the run of a read, a send notification and two timely acks,
after which the controller is still in slow start with window 18. -/
theorem slow_start_left_once_witness :
    run fresh [.window_size, .datagram_was_sent 1 5, timelyAck, timelyAck]
        = some ([14], { fresh with the_window_size := .fin 18 }) ∧
      changes (fresh.slow_start ::
        phases fresh [.window_size, .datagram_was_sent 1 5, timelyAck, timelyAck]) ≤ 1 ∧
      (∀ c r s1, step { fresh with the_window_size := .fin 18 } c = some (r, s1) →
        ({ fresh with the_window_size := .fin 18 } : State).slow_start = true →
        s1.slow_start = false →
        ∃ n a b d t, c = .ack_received n a b d ∧
          timeout_ms { fresh with the_window_size := .fin 18 } = some t ∧ t < rtt_of a d) :=
  have h : run fresh [.window_size, .datagram_was_sent 1 5, timelyAck, timelyAck]
      = some ([14], { fresh with the_window_size := .fin 18 }) := by decide!
  ⟨h, (slow_start_left_once _ _ _ h).2.1, (slow_start_left_once _ _ _ h).2.2.2⟩

/-- C8, counterexample: on a fresh controller an ack received at time 990 for
a datagram sent at time 1000 has the computed round-trip time `2 ^ 64 - 10`, not
0; a loss is inferred and the window is halved to 7, where an ack with
round-trip time 0 grows it to 16. -/
theorem ack_received_wraps_rtt :
    (990 : Nat) < 1000 ∧ rtt_of 1000 990 = 18446744073709551606 ∧ rtt_of 1000 1000 = 0 ∧
      ack_received fresh 0 1000 0 990 = some { fresh with
        slow_start := false, timeouts_thresh := .fin 14, the_window_size := .fin 7 } ∧
      ack_received fresh 0 1000 0 1000 = some { fresh with the_window_size := .fin 16 } ∧
      ack_received fresh 0 1000 0 990 ≠ ack_received fresh 0 1000 0 1000 := by
  refine ⟨by decide, by decide, by decide, by decide!, by decide!, by decide!⟩

/-- C8, as amended: for an ack whose receipt time is below the send time, the
computed round-trip time is the wrapped 64-bit difference
`2 ^ 64 - (send - receipt)`, which is never 0, and the decision procedure runs on
that value: the resulting state is the one produced by an ack with that
round-trip time. When `send - receipt` is at most `2 ^ 64 - 2 ^ 32` that value
exceeds every value of `timeout_ms()`, so a loss is inferred and `slow_start`
is cleared. -/
theorem ack_received_underflow (s : State) (n a b c : Nat)
    (ha : a < UINT64_SIZE) (hlt : c < a) :
    rtt_of a c = UINT64_SIZE - (a - c) ∧ 0 < rtt_of a c ∧
      ack_received s n a b c = ack_received s n 0 b (UINT64_SIZE - (a - c)) ∧
      (a - c ≤ UINT64_SIZE - UINT_SIZE → ∀ t, timeout_ms s = some t →
        t < rtt_of a c ∧
          ack_received s n a b c = some (update s (UINT64_SIZE - (a - c)) t) ∧
          (update s (UINT64_SIZE - (a - c)) t).slow_start = false) := by
  have hw := rtt_of_wrapped ha hlt
  have hpos : 0 < UINT64_SIZE - (a - c) := by
    simp only [UINT64_SIZE, Nat.reducePow] at *
    omega
  have hz : rtt_of 0 (UINT64_SIZE - (a - c)) = UINT64_SIZE - (a - c) :=
    rtt_of_zero (by simp only [UINT64_SIZE, Nat.reducePow] at *; omega)
  refine ⟨hw, by rw [hw]; exact hpos, ?_, ?_⟩
  · simp only [ack_received, hw, hz]
  · intro hd t ht
    have htl := toUnsigned_lt ht
    have hr : t < UINT64_SIZE - (a - c) := by
      simp only [UINT64_SIZE, UINT_SIZE, Nat.reducePow] at *
      omega
    refine ⟨by rw [hw]; exact hr, ?_, update_late_slow_start s hr⟩
    rw [ack_received_of_timeout ht, hw]

/-- C8, witness: send time 1000, receipt time 990, on a fresh controller. -/
theorem ack_received_underflow_witness :
    rtt_of 1000 990 = UINT64_SIZE - (1000 - 990) ∧ 0 < rtt_of 1000 990 ∧
      ack_received fresh 0 1000 0 990
        = ack_received fresh 0 0 0 (UINT64_SIZE - (1000 - 990)) ∧
      (1000 - 990 ≤ UINT64_SIZE - UINT_SIZE → ∀ t, timeout_ms fresh = some t →
        t < rtt_of 1000 990 ∧
          ack_received fresh 0 1000 0 990
            = some (update fresh (UINT64_SIZE - (1000 - 990)) t) ∧
          (update fresh (UINT64_SIZE - (1000 - 990)) t).slow_start = false) :=
  ack_received_underflow fresh 0 1000 0 990 (by decide) (by decide)

/-- C9: an `ack_received` call leaves `rto`, `estimate_rtt`, `deviation`,
`ssthresh`, `phi` and `sigma` unchanged, and with them the value of
`timeout_ms()`; after every run from a fresh controller `rto` is 80,
`timeout_ms()` returns 80 and `ack_received` has a result. -/
theorem ack_received_keeps_rto :
    (∀ (s : State) (n a b c : Nat) (s1 : State), ack_received s n a b c = some s1 →
        s1.rto = s.rto ∧ s1.estimate_rtt = s.estimate_rtt ∧ s1.deviation = s.deviation ∧
          s1.ssthresh = s.ssthresh ∧ s1.phi = s.phi ∧ s1.sigma = s.sigma ∧
          timeout_ms s1 = timeout_ms s) ∧
      (∀ (cs : List Call) (outs : List Nat) (s : State), run fresh cs = some (outs, s) →
        s.rto = .fin 80 ∧ timeout_ms s = some 80 ∧
          ∀ n a b c, ack_received s n a b c = some (update s (rtt_of a c) 80)) := by
  refine ⟨?_, ?_⟩
  · intro s n a b c s1 h
    cases ht : timeout_ms s with
    | none => simp [ack_received, ht] at h
    | some t =>
      rw [ack_received_of_timeout ht] at h
      simp only [Option.some.injEq] at h
      subst h
      obtain ⟨h1, h2, h3, h4, h5, h6⟩ := update_frame s (rtt_of a c) t
      refine ⟨h1, h2, h3, h4, h5, h6, ?_⟩
      simp only [timeout_ms, h1]
      exact ht
  · intro cs outs s h
    have hr := run_fresh_rto h
    exact ⟨hr, timeout_ms_of_rto hr, fun n a b c =>
      ack_received_of_timeout (timeout_ms_of_rto hr) n a b c⟩

/-- C9, witness: a timely ack, a late ack and a read on a fresh controller;
`rto` is still 80 afterwards. -/
theorem ack_received_keeps_rto_witness :
    run fresh [timelyAck, lateAck, .window_size]
        = some ([8], { fresh with
            slow_start := false, timeouts_thresh := .fin 16, the_window_size := .fin 8 }) ∧
      ({ fresh with
          slow_start := false, timeouts_thresh := .fin 16,
          the_window_size := .fin 8 } : State).rto
        = .fin 80 :=
  have h : run fresh [timelyAck, lateAck, .window_size]
      = some ([8], { fresh with
          slow_start := false, timeouts_thresh := .fin 16, the_window_size := .fin 8 }) := by
    decide!
  ⟨h, (ack_received_keeps_rto.2 _ _ _ h).1⟩

theorem fresh_wide :
    run fresh (List.replicate 94 lateAck ++ [timelyAck]) = some ([], wideState) := by
  decide!

/-- C10, counterexample: 94 late acks halve the window of a fresh controller to
about `1.9e-10`, and one timely ack then adds `1.5 / window` to it: the stored
window is about `7.36e9`, above `2 ^ 32`. A read in that state converts a value
that no `unsigned int` holds, so the run that ends with that read returns no
defined value, and nothing makes it at least 1. -/
theorem window_size_read_undefined :
    run fresh (List.replicate 94 lateAck ++ [timelyAck]) = some ([], wideState) ∧
      wideState.the_window_size = .fin (7720456504063707 / 1048576) ∧
      ((2 : ℚ) ^ 32 ≤ 7720456504063707 / 1048576) ∧
      window_size wideState = none ∧
      run fresh ((List.replicate 94 lateAck ++ [timelyAck]) ++ [.window_size]) = none := by
  have hw : window_size wideState = none :=
    window_size_of_large wideState _ rfl (by norm_num)
  refine ⟨fresh_wide, rfl, by norm_num, hw, run_append_none fresh_wide ?_⟩
  simp [run, step, hw]

/-- C10, as amended: every value that `window_size` returns is at least 1, in
every state and at every read of a run from a fresh controller. A run from a
fresh controller fails to return a value only at a read that finds the stored
window at `2 ^ 32` or more, or at `+inf`, where the conversion to
`unsigned int` has no defined result; all reads before it returned at least 1.
A run without timely acks, however many late acks halve the window, returns a
value at every read, each between 1 and 14. -/
theorem window_size_at_least_one (cs : List Call) :
    (∀ outs s, run fresh cs = some (outs, s) → ∀ v ∈ outs, 1 ≤ v) ∧
      (run fresh cs = none →
        ∃ pre post outs s, cs = pre ++ Call.window_size :: post ∧
          run fresh pre = some (outs, s) ∧ (∀ v ∈ outs, 1 ≤ v) ∧ window_size s = none ∧
          (s.the_window_size = .inf false ∨ ∃ q, s.the_window_size = .fin q ∧ 2 ^ 32 ≤ q)) ∧
      ((∀ c ∈ cs, isTimely 80 c = false) →
        ∃ outs s, run fresh cs = some (outs, s) ∧ ∀ v ∈ outs, 1 ≤ v ∧ v ≤ 14) ∧
      (∀ (s : State) (v : Nat) (s1 : State), window_size s = some (v, s1) → 1 ≤ v) := by
  refine ⟨fun outs s h => run_outputs h, fun hnone => ?_, fun hall => ?_,
    fun s v s1 hw => (window_size_state hw).2⟩
  · obtain ⟨pre, c, post, outs, s, hcs, hpre, hstep⟩ := run_none_split hnone
    rcases step_none_cases hstep with ⟨hc, hu⟩ | ⟨n, a, b, d, -, ht⟩
    · refine ⟨pre, post, outs, s, by rw [hcs, hc], hpre, run_outputs hpre, ?_,
        clamp_undefined (run_fresh_nonNeg hpre).1 hu⟩
      rw [window_size_eq, hu]
      rfl
    · rw [timeout_ms_of_rto (run_fresh_rto hpre)] at ht
      simp at ht
  · exact run_without_timely cs fresh fresh_rto ⟨14, fresh_window, by norm_num, le_rfl⟩ hall

/-- C10, witness: a read, 29 late acks and a read on a fresh controller. The
stored window falls to 7/8 and the reads return 14 and 1. -/
theorem window_size_at_least_one_witness :
    run fresh (.window_size :: List.replicate 29 lateAck ++ [.window_size])
        = some ([14, 1], { lowState with the_window_size := .fin 1 }) ∧
      (∀ v ∈ [14, 1], 1 ≤ v) ∧
      (∀ c ∈ Call.window_size :: List.replicate 29 lateAck ++ [.window_size],
        isTimely 80 c = false) ∧
      ∃ outs s,
        run fresh (.window_size :: List.replicate 29 lateAck ++ [.window_size])
          = some (outs, s) ∧ ∀ v ∈ outs, 1 ≤ v ∧ v ≤ 14 :=
  have h : run fresh (.window_size :: List.replicate 29 lateAck ++ [.window_size])
      = some ([14, 1], { lowState with the_window_size := .fin 1 }) := by decide!
  have hall : ∀ c ∈ Call.window_size :: List.replicate 29 lateAck ++ [.window_size],
      isTimely 80 c = false := by decide
  ⟨h, (window_size_at_least_one _).1 _ _ h, hall, (window_size_at_least_one _).2.2.1 hall⟩

/-! ## Claims about repeated reads -/

/-- C11: when a `window_size` call returns `v` and leaves the state `s1`, a
second call made right after it returns `v` again and leaves `s1` again, also
when the stored window was below 1 before the first call; the first call has a
result whenever the stored window is finite and below `2 ^ 32`. -/
theorem window_size_idempotent (s : State) :
    (∀ v s1, window_size s = some (v, s1) →
        window_size s1 = some (v, s1) ∧
          run s [.window_size, .window_size] = some ([v, v], s1)) ∧
      (∀ q, s.the_window_size = .fin q → q < 2 ^ 32 →
        ∃ v s1, window_size s = some (v, s1) ∧ window_size s1 = some (v, s1)) := by
  refine ⟨fun v s1 h => ⟨window_size_fix h, ?_⟩, fun q hq hlt => ?_⟩
  · simp [run, step, h, window_size_fix h]
  · have hw := window_size_of_lt s q hq hlt
    exact ⟨_, _, hw, window_size_fix hw⟩

/-- C11, witness: a stored window of 7/8; both reads return 1 and leave the
stored window at 1. -/
theorem window_size_idempotent_witness :
    window_size lowState = some (1, { lowState with the_window_size := .fin 1 }) ∧
      window_size { lowState with the_window_size := .fin 1 }
        = some (1, { lowState with the_window_size := .fin 1 }) ∧
      run lowState [.window_size, .window_size]
        = some ([1, 1], { lowState with the_window_size := .fin 1 }) :=
  have h : window_size lowState = some (1, { lowState with the_window_size := .fin 1 }) := by
    decide!
  ⟨h, ((window_size_idempotent lowState).1 _ _ h).1,
    ((window_size_idempotent lowState).1 _ _ h).2⟩

theorem slow_start_invariant {cs : List Call} {outs : List Nat} {s : State}
    (h : run fresh cs = some (outs, s)) (hss : s.slow_start = true) :
    s.num_timeouts = 0 ∧ s.timeouts_thresh = .fin 0 := by
  refine run_invariant
    (fun s => s.slow_start = true → s.num_timeouts = 0 ∧ s.timeouts_thresh = .fin 0)
    ?_ cs fresh outs s (fun _ => ⟨rfl, fresh_thresh⟩) h hss
  intro s c r s1 hP hstep hs1
  have hs : s.slow_start = true := by
    by_contra hf
    have := step_slow_start_false hstep (by simpa using hf)
    rw [hs1] at this
    exact absurd this (by simp)
  rcases step_cases hstep with ⟨-, he, -⟩ | ⟨n, t, -, he, -⟩ | ⟨n, a, b, d, t, -, -, he, -⟩
  · rw [he]
    exact hP hs
  · rw [he]
    exact hP hs
  · rcases Nat.lt_or_ge t (rtt_of a d) with hr | hr
    · have := update_late_slow_start s hr
      rw [← he, hs1] at this
      exact absurd this (by simp)
    · rw [he, update_timely_slow_start s hr hs]
      exact hP hs

theorem fresh_window_rto (q : ℚ) :
    timeout_ms { fresh with the_window_size := .fin q } = some 80 :=
  timeout_ms_of_rto fresh_rto

theorem fresh_ge :
    Double.ge (Double.ofUInt fresh.num_timeouts) fresh.timeouts_thresh = true := by
  decide!

theorem late_after_timely (q : ℚ) (hd : IsDouble (q / 2)) (c : Call)
    (hc : isLate 80 c = true) :
    run { fresh with the_window_size := .fin q } [c]
      = some ([], { fresh with
          slow_start := false
          num_timeouts := 0
          timeouts_thresh := .fin q
          the_window_size := .fin (q / 2) }) := by
  obtain ⟨n, a, b, d, rfl, hr⟩ := isLate_ack hc
  rw [run_ack (fresh_window_rto q)]
  simp only [run]
  rw [update_late_backoff { fresh with the_window_size := .fin q } hr fresh_ge]
  show some (([] : List Nat), ({ fresh with
    slow_start := false
    num_timeouts := 0
    timeouts_thresh := .fin q
    the_window_size := Double.div (.fin q) (.fin 2) } : State)) = _
  rw [half_exact q hd]

theorem isDouble_half_even (k : Nat) (h : 14 + 2 * k ≤ 2 ^ 54) :
    IsDouble ((14 + 2 * (k : ℚ)) / 2) := by
  have e : (14 + 2 * (k : ℚ)) / 2 = ((7 + k : Nat) : ℚ) := by
    push_cast
    ring
  rw [e]
  exact isDouble_natCast _ (by omega)

/-! ## Claims about runs of acks -/

/-- C12, counterexample: 2147483641 timely acks take the stored window of a
fresh controller to `14 + 2 * 2147483641 = 2 ^ 32`, which `window_size` cannot
return: it has no defined result there. And after 9007199254740986 timely acks
the stored window is `2 ^ 54`, not `14 + 2 * 9007199254740986 = 2 ^ 54 + 2`,
because `2 ^ 54 + 2` is not a `double` and the sum rounds to `2 ^ 54`. -/
theorem fresh_timely_acks_overflow :
    isTimely 80 timelyAck = true ∧
      run fresh (List.replicate 2147483641 timelyAck)
        = some ([], { fresh with the_window_size := .fin 4294967296 }) ∧
      14 + 2 * 2147483641 = 4294967296 ∧
      window_size { fresh with the_window_size := .fin 4294967296 } = none ∧
      run fresh (List.replicate 9007199254740986 timelyAck)
        = some ([], { fresh with the_window_size := .fin (2 ^ 54) }) ∧
      ((2 : ℚ) ^ 54 ≠ 14 + 2 * 9007199254740986) := by
  refine ⟨by decide, ?_, by norm_num, window_size_of_large _ _ rfl (by norm_num), ?_,
    by norm_num⟩
  · rw [fresh_after_timely _ (isTimely_replicate _)
      (by rw [List.length_replicate]; norm_num), List.length_replicate]
    norm_num
  · exact fresh_after_many_timely _ (isTimely_replicate _)
      (by rw [List.length_replicate]; norm_num)

/-- C12, as amended: `n` consecutive timely acks leave a fresh controller in
slow start with counter 0 and threshold 0, for every `n`; the stored window is
`14 + 2 n` as long as `14 + 2 n ≤ 2 ^ 54`, and stays at `2 ^ 54` from there on.
`window_size` then returns `14 + 2 n` and leaves the state as it is when
`14 + 2 n < 2 ^ 32`, and has no defined result otherwise. -/
theorem fresh_timely_acks (cs : List Call) (hall : ∀ c ∈ cs, isTimely 80 c = true) :
    (14 + 2 * cs.length ≤ 2 ^ 54 →
        run fresh cs
          = some ([], { fresh with the_window_size := .fin (14 + 2 * (cs.length : ℚ)) })) ∧
      (2 ^ 54 ≤ 14 + 2 * cs.length →
        run fresh cs = some ([], { fresh with the_window_size := .fin (2 ^ 54) })) ∧
      (∃ s, run fresh cs = some ([], s) ∧ s.slow_start = true ∧ s.num_timeouts = 0 ∧
        s.timeouts_thresh = .fin 0) ∧
      (14 + 2 * cs.length < 2 ^ 32 →
        window_size { fresh with the_window_size := .fin (14 + 2 * (cs.length : ℚ)) }
          = some (14 + 2 * cs.length,
              { fresh with the_window_size := .fin (14 + 2 * (cs.length : ℚ)) })) ∧
      (2 ^ 32 ≤ 14 + 2 * cs.length →
        ∀ s, run fresh cs = some ([], s) → window_size s = none) := by
  have hsmall := fresh_after_timely cs hall
  have hbig := fresh_after_many_timely cs hall
  refine ⟨hsmall, hbig, ?_, fun hlt => ?_, fun hge s hs => ?_⟩
  · rcases Nat.le_total (14 + 2 * cs.length) (2 ^ 54) with h | h
    · exact ⟨_, hsmall h, rfl, rfl, fresh_thresh⟩
    · exact ⟨_, hbig h, rfl, rfl, fresh_thresh⟩
  · exact window_size_natCast _ (14 + 2 * cs.length) (by omega) hlt (by push_cast; rfl)
  · rcases Nat.le_total (14 + 2 * cs.length) (2 ^ 54) with h | h
    · rw [hsmall h] at hs
      simp only [Option.some.injEq, Prod.mk.injEq, true_and] at hs
      rw [← hs]
      apply window_size_of_large _ _ rfl
      have : ((2 ^ 32 : Nat) : ℚ) ≤ ((14 + 2 * cs.length : Nat) : ℚ) := by exact_mod_cast hge
      push_cast at this
      simpa using this
    · rw [hbig h] at hs
      simp only [Option.some.injEq, Prod.mk.injEq, true_and] at hs
      rw [← hs]
      exact window_size_of_large _ _ rfl (by norm_num)

/-- C12, witness: five timely acks; the stored window is 24 and `window_size`
returns 24. -/
theorem fresh_timely_acks_witness :
    run fresh (List.replicate 5 timelyAck)
        = some ([], { fresh with the_window_size := .fin 24 }) ∧
      window_size { fresh with the_window_size := .fin 24 }
        = some (24, { fresh with the_window_size := .fin 24 }) := by
  have h := fresh_timely_acks (List.replicate 5 timelyAck) (isTimely_replicate 5)
  have e : (14 : ℚ) + 2 * ((List.replicate 5 timelyAck).length : ℚ) = 24 := by
    rw [List.length_replicate]
    norm_num
  rw [e] at h
  exact ⟨h.1 (by rw [List.length_replicate]; norm_num),
    h.2.2.2.1 (by rw [List.length_replicate]; norm_num)⟩

/-- C13, counterexample: 9007199254740986 timely acks leave the stored window
of a fresh controller at `2 ^ 54`, where `14 + 2 n` is `2 ^ 54 + 2`; the late
ack that follows stores the threshold `2 ^ 54` and the window `2 ^ 53`, not
`14 + 2 n` and `(14 + 2 n) / 2`. -/
theorem first_loss_after_plateau :
    isLate 80 lateAck = true ∧
      run fresh (List.replicate 9007199254740986 timelyAck ++ [lateAck])
        = some ([], { fresh with
            slow_start := false
            num_timeouts := 0
            timeouts_thresh := .fin (2 ^ 54)
            the_window_size := .fin (2 ^ 53) }) ∧
      ((2 : ℚ) ^ 54 ≠ 14 + 2 * 9007199254740986) ∧
      ((2 : ℚ) ^ 53 ≠ (14 + 2 * 9007199254740986) / 2) := by
  refine ⟨by decide, ?_, by norm_num, by norm_num⟩
  have h1 := fresh_after_many_timely (List.replicate 9007199254740986 timelyAck)
    (isTimely_replicate _) (by rw [List.length_replicate]; norm_num)
  have hd : IsDouble ((2 : ℚ) ^ 54 / 2) := by
    have := isDouble_natCast (2 ^ 53) le_rfl
    have e : (2 : ℚ) ^ 54 / 2 = ((2 ^ 53 : Nat) : ℚ) := by norm_num
    rw [e]
    exact this
  have h2 := late_after_timely (2 ^ 54) hd lateAck (by decide)
  have e : (2 : ℚ) ^ 54 / 2 = 2 ^ 53 := by norm_num
  rw [e] at h2
  exact run_append h1 h2

/-- C13, as amended: `n` timely acks followed by one late ack leave a fresh
controller with stored window `(14 + 2 n) / 2`, threshold `14 + 2 n`, counter 0
and `slow_start` false as long as `14 + 2 n ≤ 2 ^ 54`; for larger `n` the
threshold is `2 ^ 54` and the window `2 ^ 53`. More generally, in every state
that a run from a fresh controller reaches while still in slow start, the
counter and the threshold are 0 and a late ack backs off at once, storing the
window as threshold and the `double` quotient `window / 2` as window. -/
theorem first_loss_backs_off (cs : List Call) (c : Call)
    (hall : ∀ x ∈ cs, isTimely 80 x = true) (hc : isLate 80 c = true) :
    (14 + 2 * cs.length ≤ 2 ^ 54 →
        run fresh (cs ++ [c]) = some ([], { fresh with
          slow_start := false
          num_timeouts := 0
          timeouts_thresh := .fin (14 + 2 * (cs.length : ℚ))
          the_window_size := .fin ((14 + 2 * (cs.length : ℚ)) / 2) })) ∧
      (2 ^ 54 ≤ 14 + 2 * cs.length →
        run fresh (cs ++ [c]) = some ([], { fresh with
          slow_start := false
          num_timeouts := 0
          timeouts_thresh := .fin (2 ^ 54)
          the_window_size := .fin (2 ^ 53) })) ∧
      (∀ pre outs s, run fresh pre = some (outs, s) → s.slow_start = true →
        s.num_timeouts = 0 ∧ s.timeouts_thresh = .fin 0 ∧
          ∀ n a b d, 80 < rtt_of a d →
            ack_received s n a b d = some { s with
              slow_start := false
              num_timeouts := 0
              timeouts_thresh := s.the_window_size
              the_window_size := Double.div s.the_window_size (.fin 2) }) := by
  refine ⟨fun hle => ?_, fun hge => ?_, ?_⟩
  · exact run_append (fresh_after_timely cs hall hle)
      (late_after_timely _ (isDouble_half_even cs.length hle) c hc)
  · have hd : IsDouble ((2 : ℚ) ^ 54 / 2) := by
      have e : (2 : ℚ) ^ 54 / 2 = ((2 ^ 53 : Nat) : ℚ) := by norm_num
      rw [e]
      exact isDouble_natCast (2 ^ 53) le_rfl
    have h2 := late_after_timely (2 ^ 54) hd c hc
    have e : (2 : ℚ) ^ 54 / 2 = 2 ^ 53 := by norm_num
    rw [e] at h2
    exact run_append (fresh_after_many_timely cs hall hge) h2
  · intro pre outs s hrun hss
    obtain ⟨hn, ht⟩ := slow_start_invariant hrun hss
    refine ⟨hn, ht, fun n a b d hr => ?_⟩
    rw [ack_received_of_timeout (timeout_ms_of_rto (run_fresh_rto hrun)),
      update_late_backoff s hr (by rw [hn, ht]; decide!)]

/-- C13, witness: five timely acks and one late ack; the window 24 is halved to
12 and the threshold becomes 24. -/
theorem first_loss_backs_off_witness :
    run fresh (List.replicate 5 timelyAck ++ [lateAck]) = some ([], { fresh with
        slow_start := false
        num_timeouts := 0
        timeouts_thresh := .fin 24
        the_window_size := .fin 12 }) := by
  have h := (first_loss_backs_off (List.replicate 5 timelyAck) lateAck
    (isTimely_replicate 5) (by decide)).1 (by rw [List.length_replicate]; norm_num)
  have e : (14 : ℚ) + 2 * ((List.replicate 5 timelyAck).length : ℚ) = 24 := by
    rw [List.length_replicate]
    norm_num
  rw [e] at h
  rw [h]
  norm_num

/-! ## The estimator of `METHOD 6` -/

theorem estimator_fields (s : State) (rtt : Nat) :
    (estimator s rtt).estimate_rtt
        = Double.add s.estimate_rtt
            (Double.mul s.sigma
              (Double.sub (Double.mul (.fin 1) (Double.ofUInt64 rtt))
                (Double.mul (.fin 1) s.estimate_rtt))) ∧
      (estimator s rtt).deviation
        = Double.add s.deviation
            (Double.mul (Double.mul (.fin 1) s.sigma)
              (Double.sub
                (Double.abs
                  (Double.sub (Double.mul (.fin 1) (Double.ofUInt64 rtt))
                    (Double.mul (.fin 1) s.estimate_rtt)))
                s.deviation)) ∧
      (estimator s rtt).rto
        = Double.add (estimator s rtt).estimate_rtt
            (Double.mul s.phi (estimator s rtt).deviation) := by
  simp only [estimator, lit_one_dec]
  exact ⟨trivial, trivial, trivial⟩

theorem estimator_congr {s s1 : State} (rtt : Nat)
    (he : s1.estimate_rtt = s.estimate_rtt) (hd : s1.deviation = s.deviation)
    (hs : s1.sigma = s.sigma) (hp : s1.phi = s.phi) :
    (estimator s1 rtt).estimate_rtt = (estimator s rtt).estimate_rtt ∧
      (estimator s1 rtt).deviation = (estimator s rtt).deviation ∧
      (estimator s1 rtt).rto = (estimator s rtt).rto := by
  obtain ⟨a1, a2, a3⟩ := estimator_fields s1 rtt
  obtain ⟨b1, b2, b3⟩ := estimator_fields s rtt
  have e1 : (estimator s1 rtt).estimate_rtt = (estimator s rtt).estimate_rtt := by
    rw [a1, b1, he, hs]
  have e2 : (estimator s1 rtt).deviation = (estimator s rtt).deviation := by
    rw [a2, b2, he, hd, hs]
  exact ⟨e1, e2, by rw [a3, b3, e1, e2, hp]⟩

theorem mul_one_exact {e : ℚ} (h : IsDouble e) : Double.mul (.fin 1) (.fin e) = .fin e := by
  have h1 : Double.mul (.fin 1) (.fin e)
      = Double.round (1 * e) (xor (decide ((1 : ℚ) < 0)) (decide (e < 0))) := rfl
  rw [h1, one_mul]
  by_cases h0 : e = 0
  · rw [h0, round_zero]
    simp [Double.zero]
  · exact round_of_isDouble h h0 _

theorem ofUInt64_exact (n : Nat) (h : n ≤ 2 ^ 53) : Double.ofUInt64 n = .fin (n : ℚ) :=
  isDouble_natCast n h

theorem mul_one_fifth : Double.mul (.fin 1) (Double.lit 0.2) = Double.lit 0.2 := by decide!

/-- C14, counterexample: `sigma` holds the `double` nearest to 0.2, which is
not 0.2, and each operation rounds. From estimate 80 and `rtt = 51` the
estimator stores `5221360817982669 / 2 ^ 46`, where the claimed
`80 + 0.2 * (51 - 80)` is `371 / 5`; after the round-trip times 40, 51 and 49
on a fresh controller `rto` is `7951668092076031 / 2 ^ 46`, just below 113,
and `timeout_ms()` returns 112, where the claimed formulas give `rto = 113`. -/
theorem estimator_rounds :
    fresh.sigma = .fin (3602879701896397 / 18014398509481984) ∧
      ((3602879701896397 / 18014398509481984 : ℚ) ≠ 0.2) ∧
      fresh.estimate_rtt = .fin 80 ∧ fresh.deviation = .fin 0 ∧
      (estimator fresh 51).estimate_rtt = .fin (5221360817982669 / 70368744177664) ∧
      (estimator_spec (80, 0, 80) 51).1 = 371 / 5 ∧
      ((5221360817982669 / 70368744177664 : ℚ) ≠ 371 / 5) ∧
      (acks_method6 fresh [40, 51, 49]).map (fun s => s.rto)
        = some (.fin (7951668092076031 / 70368744177664)) ∧
      (acks_method6 fresh [40, 51, 49]).bind timeout_ms = some 112 ∧
      ([40, 51, 49].foldl estimator_spec (80, 0, 80)).2.2 = 113 := by
  refine ⟨by decide!, by norm_num, by decide!, by decide!, by decide!, by decide!,
    by norm_num, by decide!, by decide!, by decide!⟩

/-- C14, as amended: with the constants of the source, `sigma` the `double`
nearest to 0.2 and `phi = 4`, the `METHOD 6` estimator computes
`diff = 1.0 * rtt - 1.0 * estimate_rtt` from the old estimate and stores
`estimate_rtt + sigma * diff`, `deviation + 1.0 * sigma * (|diff| - deviation)`
and, from these two new values, `rto = estimate_rtt + phi * deviation`, every
operation being the `double` operation, rounded to nearest. When the old
estimate is a `double` and `rtt ≤ 2 ^ 53` the factors `1.0` change nothing. From
estimate 80, deviation 0 and `rtt = 100` the results are exactly 84, 4 and 100.
Every result of the `METHOD 6` `ack_received` carries these three values. -/
theorem estimator_update (s : State) (rtt : Nat) (hsigma : s.sigma = Double.lit 0.2)
    (hphi : s.phi = Double.lit 4) :
    (estimator s rtt).estimate_rtt
        = Double.add s.estimate_rtt
            (Double.mul (Double.lit 0.2)
              (Double.sub (Double.mul (.fin 1) (Double.ofUInt64 rtt))
                (Double.mul (.fin 1) s.estimate_rtt))) ∧
      (estimator s rtt).deviation
        = Double.add s.deviation
            (Double.mul (Double.mul (.fin 1) (Double.lit 0.2))
              (Double.sub
                (Double.abs
                  (Double.sub (Double.mul (.fin 1) (Double.ofUInt64 rtt))
                    (Double.mul (.fin 1) s.estimate_rtt)))
                s.deviation)) ∧
      (estimator s rtt).rto
        = Double.add (estimator s rtt).estimate_rtt
            (Double.mul (.fin 4) (estimator s rtt).deviation) ∧
      (∀ e, s.estimate_rtt = .fin e → IsDouble e → rtt ≤ 2 ^ 53 →
        (estimator s rtt).estimate_rtt
            = Double.add (.fin e)
                (Double.mul (Double.lit 0.2) (Double.sub (.fin (rtt : ℚ)) (.fin e))) ∧
          (estimator s rtt).deviation
            = Double.add s.deviation
                (Double.mul (Double.lit 0.2)
                  (Double.sub (Double.abs (Double.sub (.fin (rtt : ℚ)) (.fin e)))
                    s.deviation))) ∧
      (s.estimate_rtt = .fin 80 → s.deviation = .fin 0 → rtt = 100 →
        (estimator s rtt).estimate_rtt = .fin 84 ∧ (estimator s rtt).deviation = .fin 4 ∧
          (estimator s rtt).rto = .fin 100) ∧
      (∀ n a b d s2, rtt_of a d = rtt → ack_received_method6 s n a b d = some s2 →
        s2.estimate_rtt = (estimator s rtt).estimate_rtt ∧
          s2.deviation = (estimator s rtt).deviation ∧
          s2.rto = (estimator s rtt).rto) := by
  obtain ⟨h1, h2, h3⟩ := estimator_fields s rtt
  rw [hsigma] at h1 h2
  rw [hphi, lit_four] at h3
  refine ⟨h1, h2, h3, ?_, ?_, ?_⟩
  · intro e he hd hr
    have hrtt : Double.mul (.fin 1) (Double.ofUInt64 rtt) = .fin (rtt : ℚ) := by
      rw [ofUInt64_exact rtt hr]
      exact mul_one_exact (isDouble_natCast rtt hr)
    rw [h1, h2, he, hrtt, mul_one_exact hd, mul_one_fifth]
    exact ⟨rfl, rfl⟩
  · intro he hd hr
    have e1 : (estimator s rtt).estimate_rtt = .fin 84 := by
      rw [h1, he, hr]
      decide!
    have e2 : (estimator s rtt).deviation = .fin 4 := by
      rw [h2, he, hd, hr]
      decide!
    refine ⟨e1, e2, ?_⟩
    rw [h3, e1, e2]
    decide!
  · intro n a b d s2 hr h
    simp only [ack_received_method6, hr] at h
    cases ht : timeout_ms s with
    | none => simp [ht] at h
    | some t =>
      simp only [ht, Option.some_bind] at h
      split_ifs at h with hlate hss
      · simp only [Option.map_map, Option.map_eq_some', Function.comp] at h
        obtain ⟨v, -, hv⟩ := h
        rw [← hv]
        exact estimator_congr rtt rfl rfl rfl rfl
      · simp only [Option.map_some', Option.some.injEq] at h
        rw [← h]
        exact estimator_congr rtt rfl rfl rfl rfl
      · simp only [Option.map_some', Option.some.injEq] at h
        rw [← h]
        exact estimator_congr rtt rfl rfl rfl rfl

/-- C14, witness: the fresh globals (estimate 80, deviation 0, `rto` 80) and
an ack with `rtt = 100`: the estimator gives 84, 4 and 100, and so does the
whole `METHOD 6` `ack_received`. -/
theorem estimator_update_witness :
    fresh.sigma = Double.lit 0.2 ∧ fresh.phi = Double.lit 4 ∧
      ((estimator fresh 100).estimate_rtt = .fin 84 ∧
        (estimator fresh 100).deviation = .fin 4 ∧
        (estimator fresh 100).rto = .fin 100) ∧
      ack_received_method6 fresh 0 0 0 100 = some { fresh with
        ssthresh := 7, the_window_size := .fin 1, estimate_rtt := .fin 84,
        deviation := .fin 4, rto := .fin 100 } :=
  ⟨rfl, rfl,
    (estimator_update fresh 100 rfl rfl).2.2.2.2.1 (by decide!) (by decide!) rfl,
    by decide!⟩

/-! ## Invariants of the final policy -/

theorem step_ssthresh {s s1 : State} {c : Call} {r : Option Nat}
    (h : step s c = some (r, s1)) : s1.ssthresh = s.ssthresh := by
  rcases step_cases h with ⟨-, hs, -⟩ | ⟨n, t, -, hs, -⟩ | ⟨n, a, b, d, t, -, -, hs, -⟩
  · rw [hs]
  · rw [hs]
  · rw [hs]; exact (update_frame s _ _).2.2.2.1

/-- C15, counterexample: the first late ack on a fresh controller halves the
window 14 to 7 and leaves `ssthresh` at 999999, which is not half of 14. -/
theorem ssthresh_not_set :
    run fresh [lateAck] = some ([], { fresh with
        slow_start := false, timeouts_thresh := .fin 14, the_window_size := .fin 7 }) ∧
      ({ fresh with
        slow_start := false, timeouts_thresh := .fin 14,
        the_window_size := .fin 7 } : State).ssthresh
        = 999999 ∧
      fresh.the_window_size = .fin 14 ∧
      ((999999 : Nat) : ℚ) ≠ 14 / 2 := by
  refine ⟨by decide!, rfl, fresh_window, by norm_num⟩

/-- C15, as amended: under the final policy `ssthresh` is never assigned; it
holds its initial value 999999 in every state a run from a fresh controller
reaches, also after the first late ack. -/
theorem ssthresh_constant (cs : List Call) (outs : List Nat) (s : State)
    (h : run fresh cs = some (outs, s)) : s.ssthresh = 999999 :=
  run_invariant (fun s => s.ssthresh = 999999)
    (fun _ _ _ _ hP hs => (step_ssthresh hs).trans hP) cs fresh outs s rfl h

/-- C15, witness: five timely acks, a late ack and a read. -/
theorem ssthresh_constant_witness :
    run fresh (List.replicate 5 timelyAck ++ [lateAck, .window_size])
        = some ([12], { fresh with
            slow_start := false, timeouts_thresh := .fin 24, the_window_size := .fin 12 }) ∧
      ({ fresh with
          slow_start := false, timeouts_thresh := .fin 24,
          the_window_size := .fin 12 } : State).ssthresh
        = 999999 :=
  have h : run fresh (List.replicate 5 timelyAck ++ [lateAck, .window_size])
      = some ([12], { fresh with
          slow_start := false, timeouts_thresh := .fin 24, the_window_size := .fin 12 }) := by
    decide!
  ⟨h, ssthresh_constant _ _ _ h⟩

/-! ## A lower bound for the window -/

theorem atLeast_mono {e1 e2 : Int} {w : Double} (h : e1 ≤ e2) (hw : w.AtLeastPow2 e2) :
    w.AtLeastPow2 e1 := by
  rcases hw with hw | ⟨q, hw, hq⟩
  · exact Or.inl hw
  · exact Or.inr ⟨q, hw, le_trans (pow2_le_pow2 h) hq⟩

theorem atLeast_round {e : Int} {x : ℚ} (h1 : -1074 ≤ e) (h2 : e ≤ 3) (hx : pow2 e ≤ x)
    (z : Bool) : (Double.round x z).AtLeastPow2 e :=
  round_ge_double (pow2_pos e) (isDouble_pow2 e h1 (by omega)) hx z

theorem atLeast_half {e : Int} {w : Double} (h1 : -1074 ≤ e - 1) (h2 : e ≤ 3)
    (hw : w.AtLeastPow2 e) : (Double.div w (.fin 2)).AtLeastPow2 (e - 1) := by
  rcases hw with hw | ⟨q, hw, hq⟩
  · rw [hw]
    exact Or.inl (by decide!)
  · rw [hw, div_fin_fin q 2 (by norm_num)]
    apply atLeast_round h1 (by omega)
    rw [pow2_sub, pow2_one]
    linarith

theorem atLeast_add_two {e : Int} {w : Double} (h1 : -1074 ≤ e) (h2 : e ≤ 3)
    (hw : w.AtLeastPow2 e) : (Double.add w (.fin 2)).AtLeastPow2 e := by
  rcases hw with hw | ⟨q, hw, hq⟩
  · rw [hw]
    exact Or.inl rfl
  · rw [hw, add_fin_fin]
    exact atLeast_round h1 h2 (by linarith) _

theorem atLeast_grow {e : Int} {w : Double} (h1 : -1074 ≤ e) (h2 : e ≤ 3)
    (hw : w.AtLeastPow2 e) :
    (Double.add w (Double.div (.fin (3 / 2)) w)).AtLeastPow2 e := by
  rcases hw with hw | ⟨q, hw, hq⟩
  · rw [hw]
    exact Or.inl (by decide!)
  · have hpos : 0 < q := lt_of_lt_of_le (pow2_pos e) hq
    rw [hw, div_fin_fin _ q hpos.ne']
    rcases round_nonneg_any (div_pos (by norm_num : (0 : ℚ) < 3 / 2) hpos)
        (xor (decide ((3 / 2 : ℚ) < 0)) (decide (q < 0))) with hd | ⟨d, hd, hd0⟩
    · rw [hd]
      exact Or.inl rfl
    · rw [hd, add_fin_fin]
      exact atLeast_round h1 h2 (by linarith) _

theorem atLeast_clamp {e : Int} {w : Double} (hw : w.AtLeastPow2 e) :
    (clampWindow w).AtLeastPow2 e := by
  rcases hw with hw | ⟨q, hw, hq⟩
  · rw [hw]
    exact Or.inl (by decide!)
  · rw [hw, clampWindow_fin]
    exact Or.inr ⟨_, rfl, le_trans hq (le_max_right 1 q)⟩

theorem atLeast_not_zero {e : Int} {w : Double} (hw : w.AtLeastPow2 e) : w.isZero = false := by
  rcases hw with hw | ⟨q, hw, hq⟩
  · rw [hw]
    rfl
  · have hpos : 0 < q := lt_of_lt_of_le (pow2_pos e) hq
    rw [hw]
    simp [Double.isZero, hpos.ne']

theorem lateCount_cons (t : Nat) (c : Call) (cs : List Call) :
    lateCount t (c :: cs) = (if isLate t c = true then 1 else 0) + lateCount t cs := by
  unfold lateCount
  by_cases h : isLate t c = true
  · simp [List.filter_cons, h]
    omega
  · simp [List.filter_cons, h]

theorem run_window_lower (cs : List Call) :
    ∀ (s : State) (e : Int), s.rto = .fin 80 → e ≤ 3 →
      -1074 ≤ e - (lateCount 80 cs : Int) → s.the_window_size.AtLeastPow2 e →
      ∀ outs s1, run s cs = some (outs, s1) →
        s1.the_window_size.AtLeastPow2 (e - (lateCount 80 cs : Int)) := by
  induction cs with
  | nil =>
    intro s e _ _ _ hw outs s1 h
    simp only [run, Option.some.injEq, Prod.mk.injEq] at h
    rw [← h.2]
    simpa [lateCount] using hw
  | cons c cs ih =>
    intro s e hrto he hlow hw outs s2 h
    obtain ⟨r, s1, outs1, hstep, hrun, -⟩ := run_cons_some h
    have hrto1 : s1.rto = .fin 80 := (step_rto hstep).trans hrto
    rw [lateCount_cons] at hlow ⊢
    rcases step_cases hstep with ⟨hc, hs, -⟩ | ⟨n, t, hc, hs, -⟩ | ⟨n, a, b, d, t, hc, ht, hs, -⟩
    · have hl : isLate 80 c = false := by rw [hc]; rfl
      simp only [hl, Bool.false_eq_true, if_false, Nat.zero_add] at hlow ⊢
      exact ih s1 e hrto1 he hlow (by rw [hs]; exact atLeast_clamp hw) outs1 s2 hrun
    · have hl : isLate 80 c = false := by rw [hc]; rfl
      simp only [hl, Bool.false_eq_true, if_false, Nat.zero_add] at hlow ⊢
      exact ih s1 e hrto1 he hlow (by rw [hs]; exact hw) outs1 s2 hrun
    · have ht80 : t = 80 := by
        rw [timeout_ms_of_rto hrto] at ht
        simpa using ht.symm
      subst ht80
      rcases Nat.lt_or_ge 80 (rtt_of a d) with hr | hr
      · have hl : isLate 80 c = true := by
          rw [hc]
          simpa [isLate] using hr
        simp only [hl, if_true, Nat.cast_add, Nat.cast_one] at hlow ⊢
        have hw1 : s1.the_window_size.AtLeastPow2 (e - 1) := by
          rw [hs]
          rcases Bool.eq_false_or_eq_true
              (Double.ge (Double.ofUInt s.num_timeouts) s.timeouts_thresh) with hn | hn
          · rw [update_late_backoff s hr hn]
            exact atLeast_half (by omega) he hw
          · rw [update_late_count s hr hn]
            exact atLeast_mono (by omega) hw
        have := ih s1 (e - 1) hrto1 (by omega) (by omega) hw1 outs1 s2 hrun
        have e1 : e - (1 + (lateCount 80 cs : Int)) = e - 1 - (lateCount 80 cs : Int) := by ring
        rw [e1]
        exact this
      · have hl : isLate 80 c = false := by
          rw [hc]
          simpa [isLate] using hr
        simp only [hl, Bool.false_eq_true, if_false, Nat.zero_add] at hlow ⊢
        have hw1 : s1.the_window_size.AtLeastPow2 e := by
          rw [hs]
          rcases Bool.eq_false_or_eq_true s.slow_start with hss | hss
          · rw [update_timely_slow_start s hr hss]
            exact atLeast_add_two (by omega) he hw
          · rw [update_timely_avoidance s hr hss]
            exact atLeast_grow (by omega) he hw
        exact ih s1 e hrto1 he hlow hw1 outs1 s2 hrun

theorem fresh_atLeast : fresh.the_window_size.AtLeastPow2 3 := by
  rw [fresh_window]
  exact Or.inr ⟨14, rfl, by norm_num [pow2]⟩

theorem zeroState_rto : timeout_ms zeroState = some 80 := timeout_ms_of_rto fresh_rto

theorem fresh_zero : run fresh (List.replicate 2180 lateAck) = some ([], zeroState) := by
  have h1 := fresh_halved 1070 le_rfl
  have h2 : run (halvedState 1074) (List.replicate 8 lateAck) = some ([], zeroState) := by
    decide!
  have h3 := run_append h1 h2
  have e : List.replicate (32 + 2 * 1070) lateAck ++ List.replicate 8 lateAck
      = List.replicate 2180 lateAck := (List.replicate_add (32 + 2 * 1070) 8 lateAck).symm
  rw [e] at h3
  exact h3

/-! ## Claims about the invariants -/

/-- C16, counterexample: 2180 late acks halve the window of a fresh controller
down to 0, the last halving rounding `2 ^ (-1074)`, the least positive
`double`, to 0. The stored window is then not strictly positive, and the next
timely ack divides by zero: `1.5 / 0` is `+inf`, which becomes the window. -/
theorem window_reaches_zero :
    run fresh (List.replicate 2180 lateAck) = some ([], zeroState) ∧
      zeroState.the_window_size = .fin 0 ∧ zeroState.slow_start = false ∧
      Double.div (.fin (3 / 2)) zeroState.the_window_size = .inf false ∧
      ack_received zeroState 0 0 0 10
        = some { zeroState with the_window_size := .inf false } := by
  refine ⟨fresh_zero, rfl, rfl, by decide!, by decide!⟩

/-- C16, as amended: in every state that a run of `ack_received`,
`window_size` and `datagram_was_sent` calls reaches from a fresh controller the
stored window is never negative and never NaN: it is `+inf` or a finite value
of at least 0. As long as the run holds at most 1077 late acks the window is
strictly positive, at least `2 ^ (3 - k)` after `k` late acks, and the divisor
of `1.5 / the_window_size` is not 0. -/
theorem window_positive (cs : List Call) (outs : List Nat) (s : State)
    (h : run fresh cs = some (outs, s)) :
    s.the_window_size.NonNeg ∧ s.the_window_size ≠ .nan ∧
      (lateCount 80 cs ≤ 1077 →
        s.the_window_size.AtLeastPow2 (3 - (lateCount 80 cs : Int)) ∧
          s.the_window_size.isZero = false ∧
          (∀ q, s.the_window_size = .fin q → 0 < q)) := by
  have hnn := (run_fresh_nonNeg h).1
  refine ⟨hnn, ?_, fun hk => ?_⟩
  · rcases hnn with hw | ⟨q, hw, -⟩ <;> rw [hw] <;> simp
  · have hlow := run_window_lower cs fresh 3 fresh_rto le_rfl (by omega) fresh_atLeast outs s h
    refine ⟨hlow, atLeast_not_zero hlow, fun q hq => ?_⟩
    rcases hlow with hw | ⟨r, hw, hr⟩
    · rw [hw] at hq
      simp at hq
    · rw [hw] at hq
      simp only [Double.fin.injEq] at hq
      rw [← hq]
      exact lt_of_lt_of_le (pow2_pos _) hr

/-- C16, witness: 29 late acks on a fresh controller, which leave the window
at 7/8. -/
theorem window_positive_witness :
    run fresh (List.replicate 29 lateAck) = some ([], lowState) ∧
      lateCount 80 (List.replicate 29 lateAck) ≤ 1077 ∧
      lowState.the_window_size = .fin (7 / 8) ∧ (0 : ℚ) < 7 / 8 :=
  have h : run fresh (List.replicate 29 lateAck) = some ([], lowState) := by decide!
  ⟨h, by decide, rfl, ((window_positive _ _ _ h).2.2 (by decide)).2.2 _ rfl⟩

theorem counterBound_of_nonNeg {w : Double} (h : w.NonNeg) : CounterBound w 0 := by
  rcases h with h | ⟨q, h, hq⟩
  · exact Or.inl h
  · refine Or.inr ⟨q, h, hq, ?_⟩
    simp only [Nat.cast_zero]
    linarith

theorem update_counterBound (s : State) (rtt t : Nat)
    (h : s.the_window_size.NonNeg ∧ CounterBound s.timeouts_thresh s.num_timeouts) :
    (update s rtt t).the_window_size.NonNeg ∧
      CounterBound (update s rtt t).timeouts_thresh (update s rtt t).num_timeouts := by
  obtain ⟨hw, hT⟩ := h
  have hT0 : s.timeouts_thresh.NonNeg := by
    rcases hT with hT | ⟨T, hT, h0, -⟩
    · exact Or.inl hT
    · exact Or.inr ⟨T, hT, h0⟩
  refine ⟨(update_nonNeg s rtt t ⟨hw, hT0⟩).1, ?_⟩
  rcases Nat.lt_or_ge t rtt with hr | hr
  · rcases Bool.eq_false_or_eq_true
        (Double.ge (Double.ofUInt s.num_timeouts) s.timeouts_thresh) with hn | hn
    · rw [update_late_backoff s hr hn]
      exact counterBound_of_nonNeg hw
    · rw [update_late_count s hr hn]
      rcases hT with hT | ⟨T, hT, h0, -⟩
      · exact Or.inl hT
      · refine Or.inr ⟨T, hT, h0, ?_⟩
        rw [hT, ge_ofUInt_fin] at hn
        have hlt : (s.num_timeouts : ℚ) < T := by
          simpa using hn
        have hle : (s.num_timeouts + 1) % UINT_SIZE ≤ s.num_timeouts + 1 := Nat.mod_le _ _
        have hq : (((s.num_timeouts + 1) % UINT_SIZE : Nat) : ℚ) ≤ (s.num_timeouts : ℚ) + 1 := by
          exact_mod_cast hle
        show (((s.num_timeouts + 1) % UINT_SIZE : Nat) : ℚ) < T + 1
        linarith
  · rcases Bool.eq_false_or_eq_true s.slow_start with hss | hss
    · rw [update_timely_slow_start s hr hss]
      exact hT
    · rw [update_timely_avoidance s hr hss]
      exact hT

theorem run_fresh_counterBound {cs : List Call} {outs : List Nat} {s : State}
    (h : run fresh cs = some (outs, s)) :
    s.the_window_size.NonNeg ∧ CounterBound s.timeouts_thresh s.num_timeouts := by
  refine run_invariant
    (fun s => s.the_window_size.NonNeg ∧ CounterBound s.timeouts_thresh s.num_timeouts)
    ?_ cs fresh outs s
    ⟨Or.inr ⟨14, fresh_window, by norm_num⟩, Or.inr ⟨0, fresh_thresh, le_rfl, by simp [fresh]⟩⟩ h
  intro s c r s1 hP hstep
  rcases step_cases hstep with ⟨-, he, -⟩ | ⟨n, t, -, he, -⟩ | ⟨n, a, b, d, t, -, -, he, -⟩
  · rw [he]
    exact ⟨nonNeg_clamp hP.1, hP.2⟩
  · rw [he]
    exact hP
  · rw [he]
    exact update_counterBound s _ _ hP

/-- C18: in every state that a run from a fresh controller reaches,
`timeouts_thresh` is at least 0 and `num_timeouts` is below
`timeouts_thresh + 1`, hence at most the ceiling of `timeouts_thresh`: the
threshold is either `+inf`, above every counter value, or a finite value `T`
with `0 ≤ T`, `num_timeouts < T + 1` and `num_timeouts ≤ ⌈T⌉`. -/
theorem counter_bounded (cs : List Call) (outs : List Nat) (s : State)
    (h : run fresh cs = some (outs, s)) :
    s.timeouts_thresh = .inf false ∨
      ∃ T, s.timeouts_thresh = .fin T ∧ 0 ≤ T ∧ (s.num_timeouts : ℚ) < T + 1 ∧
        s.num_timeouts ≤ ⌈T⌉₊ := by
  rcases (run_fresh_counterBound h).2 with hT | ⟨T, hT, h0, hn⟩
  · exact Or.inl hT
  · refine Or.inr ⟨T, hT, h0, hn, ?_⟩
    by_contra hlt
    have h1 : ⌈T⌉₊ + 1 ≤ s.num_timeouts := by omega
    have h2 : ((⌈T⌉₊ + 1 : Nat) : ℚ) ≤ (s.num_timeouts : ℚ) := by
      exact_mod_cast h1
    have h3 : T ≤ (⌈T⌉₊ : ℚ) := Nat.le_ceil _
    push_cast at h2
    linarith

/-- C18, witness: a late ack, then two more on a fresh controller; the
threshold is 14 and the counter 2. -/
theorem counter_bounded_witness :
    run fresh [lateAck, lateAck, lateAck] = some ([], { fresh with
        slow_start := false, timeouts_thresh := .fin 14, the_window_size := .fin 7,
        num_timeouts := 2 }) ∧
      (Double.fin 14 = .inf false ∨
        ∃ T, Double.fin 14 = .fin T ∧ 0 ≤ T ∧ ((2 : Nat) : ℚ) < T + 1 ∧ 2 ≤ ⌈T⌉₊) :=
  have h : run fresh [lateAck, lateAck, lateAck] = some ([], { fresh with
      slow_start := false, timeouts_thresh := .fin 14, the_window_size := .fin 7,
      num_timeouts := 2 }) := by decide!
  ⟨h, counter_bounded _ _ _ h⟩

/-! ## Timely acks between late ones, and the length of the hysteresis -/

/-- C19: an ack whose round-trip time is at most the value of `timeout_ms()`
changes the stored window only: `num_timeouts`, `timeouts_thresh`, `slow_start`
and every other global keep their values. A late ack that follows it therefore
leaves the same counter as it would have left without the timely ack. -/
theorem timely_ack_frame (s : State) (n a b d t : Nat) (ht : timeout_ms s = some t)
    (hr : rtt_of a d ≤ t) :
    ∃ s1, ack_received s n a b d = some s1 ∧
      s1 = { s with the_window_size := s1.the_window_size } ∧
      s1.num_timeouts = s.num_timeouts ∧ s1.timeouts_thresh = s.timeouts_thresh ∧
      s1.slow_start = s.slow_start ∧
      ∀ n2 a2 b2 d2, t < rtt_of a2 d2 →
        ∃ s2 s3, ack_received s1 n2 a2 b2 d2 = some s2 ∧
          ack_received s n2 a2 b2 d2 = some s3 ∧ s2.num_timeouts = s3.num_timeouts := by
  have key : ∀ s1 : State, s1 = update s (rtt_of a d) t →
      s1 = { s with the_window_size := s1.the_window_size } →
      ∃ s1, ack_received s n a b d = some s1 ∧
        s1 = { s with the_window_size := s1.the_window_size } ∧
        s1.num_timeouts = s.num_timeouts ∧ s1.timeouts_thresh = s.timeouts_thresh ∧
        s1.slow_start = s.slow_start ∧
        ∀ n2 a2 b2 d2, t < rtt_of a2 d2 →
          ∃ s2 s3, ack_received s1 n2 a2 b2 d2 = some s2 ∧
            ack_received s n2 a2 b2 d2 = some s3 ∧ s2.num_timeouts = s3.num_timeouts := by
    intro s1 hs1 hframe
    have hn : s1.num_timeouts = s.num_timeouts := by rw [hframe]
    have hT : s1.timeouts_thresh = s.timeouts_thresh := by rw [hframe]
    have hss : s1.slow_start = s.slow_start := by rw [hframe]
    have ht1 : timeout_ms s1 = some t := by rw [hs1, timeout_ms_update, ht]
    refine ⟨s1, by rw [ack_received_of_timeout ht, hs1], hframe, hn, hT, hss, ?_⟩
    intro n2 a2 b2 d2 hlate
    refine ⟨_, _, ack_received_of_timeout ht1 n2 a2 b2 d2,
      ack_received_of_timeout ht n2 a2 b2 d2, ?_⟩
    rcases Bool.eq_false_or_eq_true
        (Double.ge (Double.ofUInt s.num_timeouts) s.timeouts_thresh) with hc | hc
    · rw [update_late_backoff s hlate hc,
        update_late_backoff s1 hlate (by rw [hn, hT]; exact hc)]
    · rw [update_late_count s hlate hc,
        update_late_count s1 hlate (by rw [hn, hT]; exact hc)]
      simp only [hn]
  rcases Bool.eq_false_or_eq_true s.slow_start with hss | hss
  · exact key _ rfl (by rw [update_timely_slow_start s hr hss])
  · exact key _ rfl (by rw [update_timely_avoidance s hr hss])

/-- C19, witness: window 12, threshold 24, counter 0 in congestion avoidance;
a timely ack between two late ones does not reset the counter, which ends
at 2. -/
theorem timely_ack_frame_witness :
    run { fresh with
          timeouts_thresh := .fin 24, the_window_size := .fin 12, slow_start := false }
        [lateAck, timelyAck, lateAck]
      = some ([], { fresh with
          timeouts_thresh := .fin 24, the_window_size := .fin (97 / 8), slow_start := false,
          num_timeouts := 2 }) ∧
      ∃ s1, ack_received
          { fresh with
            timeouts_thresh := .fin 24, the_window_size := .fin 12, slow_start := false,
            num_timeouts := 1 } 0 0 0 10 = some s1 ∧
        s1.num_timeouts = 1 ∧ s1.timeouts_thresh = .fin 24 ∧ s1.slow_start = false := by
  refine ⟨by decide!, ?_⟩
  obtain ⟨s1, h1, -, h3, h4, h5, -⟩ := timely_ack_frame
    { fresh with
      timeouts_thresh := .fin 24, the_window_size := .fin 12, slow_start := false,
      num_timeouts := 1 } 0 0 0 10 80 (timeout_ms_of_rto fresh_rto) (by decide)
  exact ⟨s1, h1, h3, h4, h5⟩

theorem run_late_count (cs : List Call) (s : State) (t : Nat)
    (ht : timeout_ms s = some t) (hall : ∀ c ∈ cs, isLate t c = true)
    (hcount : ∀ k, k < cs.length →
      Double.ge (Double.ofUInt (s.num_timeouts + k)) s.timeouts_thresh = false)
    (hwrap : s.num_timeouts + cs.length < UINT_SIZE) :
    run s cs = some ([], { s with
      slow_start := s.slow_start && cs.isEmpty
      num_timeouts := s.num_timeouts + cs.length }) := by
  induction cs generalizing s with
  | nil =>
    cases s
    simp [run]
  | cons c cs ih =>
    obtain ⟨n, a, b, d, rfl, hr⟩ := isLate_ack (hall _ (List.mem_cons_self _ cs))
    have h0 : Double.ge (Double.ofUInt s.num_timeouts) s.timeouts_thresh = false := by
      simpa using hcount 0 (by simp)
    simp only [List.length_cons] at hwrap
    have hmod : (s.num_timeouts + 1) % UINT_SIZE = s.num_timeouts + 1 :=
      Nat.mod_eq_of_lt (by omega)
    rw [run_ack ht, update_late_count s hr h0, hmod,
      ih { s with slow_start := false, num_timeouts := s.num_timeouts + 1 } ht
        (fun c hc => hall c (List.mem_cons_of_mem _ hc))
        (fun k hk => by
          have := hcount (k + 1) (by simp only [List.length_cons]; omega)
          have e : s.num_timeouts + 1 + k = s.num_timeouts + (k + 1) := by omega
          simp only [e]
          exact this)
        (by simp only; omega)]
    simp only [Bool.false_and, List.isEmpty_cons, Bool.and_false, List.length_cons,
      Option.some.injEq, Prod.mk.injEq, true_and, State.mk.injEq, and_true]
    omega

theorem run_late_wrap (cs : List Call) (s : State) (t : Nat) (T : ℚ)
    (ht : timeout_ms s = some t) (hall : ∀ c ∈ cs, isLate t c = true)
    (hthresh : s.timeouts_thresh = .fin T)
    (hT : (UINT_SIZE : ℚ) ≤ T) (hn : s.num_timeouts < UINT_SIZE) :
    run s cs = some ([], { s with
      slow_start := s.slow_start && cs.isEmpty
      num_timeouts := (s.num_timeouts + cs.length) % UINT_SIZE }) := by
  induction cs generalizing s with
  | nil =>
    cases s
    simp only [run, List.isEmpty_nil, Bool.and_true, List.length_nil, Nat.add_zero]
    simp only at hn
    rw [Nat.mod_eq_of_lt hn]
  | cons c cs ih =>
    obtain ⟨n, a, b, d, rfl, hr⟩ := isLate_ack (hall _ (List.mem_cons_self _ cs))
    have h0 : Double.ge (Double.ofUInt s.num_timeouts) s.timeouts_thresh = false := by
      rw [hthresh, ge_ofUInt_fin]
      have : (s.num_timeouts : ℚ) < T := lt_of_lt_of_le (by exact_mod_cast hn) hT
      simpa using this
    have hpos : 0 < UINT_SIZE := by decide
    rw [run_ack ht, update_late_count s hr h0,
      ih { s with slow_start := false, num_timeouts := (s.num_timeouts + 1) % UINT_SIZE } ht
        (fun c hc => hall c (List.mem_cons_of_mem _ hc)) hthresh (Nat.mod_lt _ hpos)]
    simp only [Bool.false_and, List.isEmpty_cons, Bool.and_false, List.length_cons,
      Option.some.injEq, Prod.mk.injEq, true_and, State.mk.injEq, and_true]
    rw [Nat.mod_add_mod]
    congr 1
    omega

theorem run_single_backoff (s : State) (t n a b d : Nat) (ht : timeout_ms s = some t)
    (hr : t < rtt_of a d)
    (hge : Double.ge (Double.ofUInt s.num_timeouts) s.timeouts_thresh = true) :
    run s [.ack_received n a b d] = some ([], { s with
      slow_start := false
      num_timeouts := 0
      timeouts_thresh := s.the_window_size
      the_window_size := Double.div s.the_window_size (.fin 2) }) := by
  rw [run_ack ht, update_late_backoff s hr hge]
  rfl

theorem wideThreshState_rto : timeout_ms wideThreshState = some 80 :=
  timeout_ms_of_rto fresh_rto

/-- C17, counterexample: with counter 0 and threshold `2 ^ 32` the 32-bit
counter wraps before it reaches the threshold. After `2 ^ 32` late acks it is
0 again, not `2 ^ 32`, and after `2 ^ 32 + 1` late acks the window is still
2147483648: the window is never halved. And from the state that 2172 late acks
leave a fresh controller in, with window `7 * 2 ^ (-1074)`, counter 0 and
threshold `7 * 2 ^ (-1073)`, whose ceiling is 1, the second late ack stores
`4 * 2 ^ (-1074)`, which is not half of the window. -/
theorem hysteresis_never_ends :
    wideThreshState.the_window_size = .fin 2147483648 ∧ wideThreshState.num_timeouts = 0 ∧
      wideThreshState.timeouts_thresh = .fin 4294967296 ∧
      ⌈(4294967296 : ℚ)⌉₊ = 4294967296 ∧
      isLate 80 lateAck = true ∧
      run wideThreshState (List.replicate 4294967296 lateAck)
        = some ([], { wideThreshState with num_timeouts := 0 }) ∧
      run wideThreshState (List.replicate (4294967296 + 1) lateAck)
        = some ([], { wideThreshState with num_timeouts := 1 }) ∧
      ({ wideThreshState with num_timeouts := 1 } : State).the_window_size
        = wideThreshState.the_window_size ∧
      run fresh (List.replicate 2172 lateAck) = some ([], halvedState 1074) ∧
      (halvedState 1074).the_window_size = .fin (7 * pow2 (-1074)) ∧
      (halvedState 1074).num_timeouts = 0 ∧
      (halvedState 1074).timeouts_thresh = .fin (7 * pow2 (-1073)) ∧
      ⌈7 * pow2 (-1073)⌉₊ = 1 ∧
      run (halvedState 1074) [lateAck, lateAck] = some ([], { halvedState 1074 with
        timeouts_thresh := .fin (7 * pow2 (-1074))
        the_window_size := .fin (4 * pow2 (-1074)) }) ∧
      (4 * pow2 (-1074) ≠ 7 * pow2 (-1074) / 2) := by
  have hT : (UINT_SIZE : ℚ) ≤ 4294967296 := by norm_num [UINT_SIZE]
  have hn : wideThreshState.num_timeouts < UINT_SIZE := by decide
  have hc : ⌈(4294967296 : ℚ)⌉₊ = 4294967296 := by
    have : (4294967296 : ℚ) = ((4294967296 : Nat) : ℚ) := by norm_num
    rw [this, Nat.ceil_natCast]
  have hceil : ⌈7 * pow2 (-1073)⌉₊ = 1 := by
    rw [Nat.ceil_eq_iff (by norm_num)]
    have hp := pow2_pos (-1073)
    have hs : pow2 (-1073) ≤ pow2 (-3) := pow2_le_pow2 (by norm_num)
    have e3 : pow2 (-3) = 1 / 8 := by norm_num [pow2]
    rw [e3] at hs
    constructor
    · push_cast
      linarith
    · push_cast
      linarith
  refine ⟨rfl, rfl, rfl, hc, by decide, ?_, ?_, rfl, fresh_halved 1070 le_rfl, ?_, rfl, ?_,
    hceil, by decide!, ?_⟩
  · rw [run_late_wrap _ _ 80 4294967296 wideThreshState_rto (isLate_replicate _) rfl hT hn,
      List.length_replicate]
    rfl
  · rw [run_late_wrap _ _ 80 4294967296 wideThreshState_rto (isLate_replicate _) rfl hT hn,
      List.length_replicate]
    rfl
  · simp [halvedState]
  · simp only [halvedState]
    norm_num
  · have := pow2_pos (-1074)
    intro h
    linarith

/-- C17, as amended: from a state with finite positive window `w`, counter 0
and a finite threshold `T` whose ceiling `⌈T⌉` (0 when `T` is negative) is
below `2 ^ 32`, every run of at most `⌈T⌉` late acks leaves the window and the
threshold unchanged and the counter equal to the number of acks; one more late
ack after `⌈T⌉` of them resets the counter to 0, stores the window in the
threshold and stores the `double` quotient `w / 2` as the window, which is
exactly `w / 2`, below `w`, whenever `w / 2` is a `double`. -/
theorem hysteresis_length (s : State) (t : Nat) (cs : List Call) (c : Call) (w T : ℚ)
    (hw : s.the_window_size = .fin w) (hpos : 0 < w) (hn : s.num_timeouts = 0)
    (hT : s.timeouts_thresh = .fin T)
    (hceil : ⌈T⌉₊ < UINT_SIZE) (ht : timeout_ms s = some t)
    (hall : ∀ x ∈ cs, isLate t x = true) (hc : isLate t c = true) :
    (cs.length ≤ ⌈T⌉₊ →
        run s cs = some ([], { s with
          slow_start := s.slow_start && cs.isEmpty
          num_timeouts := cs.length })) ∧
      (cs.length = ⌈T⌉₊ →
        run s (cs ++ [c]) = some ([], { s with
            slow_start := false
            num_timeouts := 0
            timeouts_thresh := .fin w
            the_window_size := Double.div (.fin w) (.fin 2) }) ∧
          (IsDouble (w / 2) →
            run s (cs ++ [c]) = some ([], { s with
                slow_start := false
                num_timeouts := 0
                timeouts_thresh := .fin w
                the_window_size := .fin (w / 2) }) ∧
              w / 2 < w)) := by
  have part1 : cs.length ≤ ⌈T⌉₊ →
      run s cs = some ([], { s with
        slow_start := s.slow_start && cs.isEmpty
        num_timeouts := cs.length }) := by
    intro hle
    have h := run_late_count cs s t ht hall
      (fun k hk => by
        rw [hn, Nat.zero_add, hT, ge_ofUInt_fin]
        have : (k : ℚ) < T := Nat.lt_ceil.mp (lt_of_lt_of_le hk hle)
        simpa using this)
      (by rw [hn]; omega)
    rw [h, hn, Nat.zero_add]
  have part2 : cs.length = ⌈T⌉₊ →
      run s (cs ++ [c]) = some ([], { s with
        slow_start := false
        num_timeouts := 0
        timeouts_thresh := .fin w
        the_window_size := Double.div (.fin w) (.fin 2) }) := by
    intro heq
    obtain ⟨n, a, b, d, rfl, hr⟩ := isLate_ack hc
    have h1 := part1 heq.le
    have hge : Double.ge (Double.ofUInt cs.length) s.timeouts_thresh = true := by
      rw [hT, ge_ofUInt_fin, heq]
      simpa using Nat.le_ceil T
    have h2 := run_single_backoff { s with
      slow_start := s.slow_start && cs.isEmpty
      num_timeouts := cs.length } t n a b d ht hr hge
    have h3 := run_append h1 h2
    rw [h3]
    simp only [hw, List.append_nil]
  refine ⟨part1, fun heq => ⟨part2 heq, fun hd => ⟨?_, by linarith⟩⟩⟩
  rw [part2 heq, half_exact w hd]

/-- C17, witness: window 7/4 and threshold 7/2, whose ceiling is 4. Four late
acks leave the window at 7/4 with the counter at 4; the fifth halves the window
to 7/8 and stores 7/4 in the threshold. -/
theorem hysteresis_length_witness :
    ⌈(7 / 2 : ℚ)⌉₊ = 4 ∧
      run hysteresisState (List.replicate 4 lateAck)
        = some ([], { hysteresisState with num_timeouts := 4 }) ∧
      run hysteresisState (List.replicate 4 lateAck ++ [lateAck])
        = some ([], { hysteresisState with
            timeouts_thresh := .fin (7 / 4), the_window_size := .fin (7 / 8) }) := by
  have hc : ⌈(7 / 2 : ℚ)⌉₊ = 4 := by decide!
  have h := hysteresis_length hysteresisState 80 (List.replicate 4 lateAck) lateAck
    (7 / 4) (7 / 2) rfl (by norm_num) rfl rfl
    (by rw [hc]; decide) (timeout_ms_of_rto fresh_rto)
    (isLate_replicate 4) (by decide)
  refine ⟨hc, h.1 (by rw [hc]; decide), ?_⟩
  rw [((h.2 (by rw [hc]; rfl)).2 (by unfold IsDouble; decide!)).1]
  decide!

end Datagrump
